import Mathlib

/-!
Verification development for the content-addressed blob cache of
`scripts/blob_cache.py` (class `BlobCache`).

The remote Azure blob container is modelled as a `Store`: one map per kind of
document the cache reads or writes (content objects, per-commit metadata,
per-branch `latest.json` and `parent_branch.json` pointers, and the optional
per-project `_base_branches.json` list).  Stored JSON documents that may fail
to parse are wrapped in `RawJson`, whose `malformed` constructor stands for a
blob whose bytes do not parse; every reader in the source catches the parse
exception and returns `None`, which the model mirrors by returning `none`.

File bytes are `List Nat`.  SHA-256 is idealized as a perfectly
collision-free digest: a `ContentHash` is a wrapper around the hashed bytes
themselves, so equal hashes mean equal bytes (the spec itself assumes the
hash is collision-resistant for this purpose).

Remote writes can fail (the source catches upload exceptions and returns
`False`); a `FaultModel` records, for one `upload_context_with_dedup` call,
which of its writes succeed.  `no_faults` is the fault-free instance.
-/

/-- File content: a sequence of bytes. -/
abbrev Bytes := List Nat

/-- Idealized SHA-256 digest of a file's bytes (`sha256-<hex>` in the source):
collision-freeness of SHA-256 is modelled by letting the digest determine the
bytes. -/
structure ContentHash where
  bytes : Bytes
deriving DecidableEq

/-- `BlobCache._compute_file_hash`: streams the file through SHA-256;
deterministic in the file's bytes.  Modelled as the idealized digest. -/
def compute_file_hash (b : Bytes) : ContentHash := ⟨b⟩

/-- Provenance of a file relative to the parent metadata
(`source` field written by `upload_context_with_dedup`). -/
inductive FileSource
  | new
  | updated
  | inherited
deriving DecidableEq

/-- One entry of a metadata document's `content_objects` list. -/
structure ContentObject where
  file_path : String
  content_hash : ContentHash
  size : Nat
  source : FileSource
  source_commit : String
deriving DecidableEq

/-- The `stats` object of a metadata document.  The ratio is the exact
rational the source's float approximates. -/
structure Stats where
  total_files : Nat
  inherited_files : Nat
  updated_files : Nat
  new_files : Nat
  deduplication_ratio : ℚ
deriving DecidableEq

/-- The `reference_from` object written on the cross-branch reference path. -/
structure ReferenceFrom where
  branch : String
  commit_sha : String
deriving DecidableEq

/-- A `metadata.json` document.  `reference_from` is `none` for documents
written by the full-publish path. -/
structure Metadata where
  commit_sha : String
  branch : String
  project_id : String
  created_at : String
  content_objects : List ContentObject
  stats : Stats
  reference_from : Option ReferenceFrom
deriving DecidableEq

/-- A branch's `latest.json` pointer. -/
structure LatestInfo where
  commit_sha : String
  created_at : String
  analysis_type : String
deriving DecidableEq

/-- A branch's `parent_branch.json` fork record. -/
structure ForkInfo where
  base_branch : String
  base_commit : String
  created_at : String
  fork_type : String
  created_by : Option String
deriving DecidableEq

/-- A stored JSON blob: either parses to a value or is malformed
(readers catch the parse exception and report the blob as missing). -/
inductive RawJson (α : Type)
  | malformed
  | ok (val : α)
deriving DecidableEq

/-- The remote blob container, split by key namespace exactly as the source's
key layout does: `objects/content/{hash}`,
`projects/{p}/branches/{b}/commits/{c}/metadata.json`,
`projects/{p}/branches/{b}/latest.json`,
`projects/{p}/branches/{b}/parent_branch.json`, and
`{p}/_base_branches.json` (whose JSON object's keys are the recorded branch
names, in order). -/
structure Store where
  content : ContentHash → Option Bytes
  metadata : String × String × String → Option (RawJson Metadata)
  latest : String × String → Option (RawJson LatestInfo)
  parent_branch : String × String → Option (RawJson ForkInfo)
  base_branches : String → Option (RawJson (List String))

/-- The container with no blobs at all. -/
def emptyStore : Store :=
  ⟨fun _ => none, fun _ => none, fun _ => none, fun _ => none, fun _ => none⟩

/-- `BlobCache._sanitize_branch_name`: `branch.replace('/','_').replace('\\','_')`.
Both patterns are single characters, so the two `str.replace` calls equal this
per-character map. -/
def sanitize_branch_name (branch : String) : String :=
  String.mk (branch.data.map (fun c => if c = '/' ∨ c = '\\' then '_' else c))

/-- Key of `projects/{project}/branches/{branch}/commits/{commit}/metadata.json`. -/
def metaKey (project branch commit : String) : String × String × String :=
  (project, sanitize_branch_name branch, commit)

/-- Key of `projects/{project}/branches/{branch}/latest.json` (also of
`parent_branch.json`). -/
def branchKey (project branch : String) : String × String :=
  (project, sanitize_branch_name branch)

/-- `BlobCache._get_metadata`: download and parse `metadata.json`; any
exception (absent blob or JSON parse failure) yields `None`. -/
def Store.getMetadata (s : Store) (project branch commit : String) : Option Metadata :=
  match s.metadata (metaKey project branch commit) with
  | some (RawJson.ok m) => some m
  | _ => none

/-- `BlobCache._get_branch_latest`: download and parse `latest.json`;
any exception yields `None`. -/
def Store.getBranchLatest (s : Store) (project branch : String) : Option LatestInfo :=
  match s.latest (branchKey project branch) with
  | some (RawJson.ok li) => some li
  | _ => none

/-- `BlobCache._get_base_branch_info`: download and parse
`parent_branch.json`; any exception yields `None`. -/
def Store.getBaseBranchInfo (s : Store) (project branch : String) : Option ForkInfo :=
  match s.parent_branch (branchKey project branch) with
  | some (RawJson.ok fi) => some fi
  | _ => none

/-- `BlobCache._content_exists`: existence probe on `objects/content/{hash}`. -/
def Store.contentExists (s : Store) (h : ContentHash) : Bool :=
  (s.content h).isSome

/-- Write a content object at `objects/content/{hash}` (only ever called when
the probe reported the key absent; `upload_blob(..., overwrite=False)`). -/
def Store.putContent (s : Store) (h : ContentHash) (b : Bytes) : Store :=
  { s with content := fun k => if k = h then some b else s.content k }

/-- Write (create or overwrite) a `metadata.json` document
(`upload_blob(..., overwrite=True)`). -/
def Store.putMetadata (s : Store) (project branch commit : String) (m : Metadata) : Store :=
  { s with metadata := fun k =>
      if k = metaKey project branch commit then some (RawJson.ok m) else s.metadata k }

/-- The result dictionary of `BlobCache.find_best_context`.  Keys absent from
the Python dictionary (`commit_sha`/`metadata` on a miss, `base_branch`
outside the cross-branch tier) are `none`. -/
structure ResolveResult where
  found : Bool
  commit_sha : Option String
  metadata : Option Metadata
  reuse_strategy : String
  base_branch : Option String
deriving DecidableEq

/-- The Level-6 miss result of `find_best_context`. -/
def no_cache_result : ResolveResult :=
  ⟨false, none, none, "full_analysis", none⟩

/-- Level 4 of `find_best_context`: follow `parent_branch.json` to the base
branch's metadata at the recorded base commit. -/
def resolve_base_branch (s : Store) (project branch : String) : ResolveResult :=
  match s.getBaseBranchInfo project branch with
  | some fi =>
    match s.getMetadata project fi.base_branch fi.base_commit with
    | some m => ⟨true, some fi.base_commit, some m, "cross-branch", some fi.base_branch⟩
    | none => no_cache_result
  | none => no_cache_result

/-- Level 3 of `find_best_context`: the branch's `latest.json`, but only when
its commit differs from the target commit; on miss, fall through to Level 4. -/
def resolve_branch_latest (s : Store) (project branch commit : String) : ResolveResult :=
  match s.getBranchLatest project branch with
  | some li =>
    if li.commit_sha = commit then resolve_base_branch s project branch
    else
      match s.getMetadata project branch li.commit_sha with
      | some m => ⟨true, some li.commit_sha, some m, "incremental", none⟩
      | none => resolve_base_branch s project branch
  | none => resolve_base_branch s project branch

/-- `BlobCache.find_best_context`: tiered lookup
(exact commit, parent commit, branch latest, base branch, miss). -/
def find_best_context (s : Store) (project branch commit : String)
    (parent_commit : Option String) : ResolveResult :=
  match s.getMetadata project branch commit with
  | some m => ⟨true, some commit, some m, "exact", none⟩
  | none =>
    match parent_commit with
    | some pc =>
      match s.getMetadata project branch pc with
      | some m => ⟨true, some pc, some m, "incremental", none⟩
      | none => resolve_branch_latest s project branch commit
    | none => resolve_branch_latest s project branch commit

/-- The hard-coded `common_branches` list of
`_find_commit_in_other_branches`. -/
def common_base_branches : List String := ["main", "master", "develop", "dev"]

/-- First pass of `_find_commit_in_other_branches`: scan a branch list,
skipping the current branch, for readable metadata at the commit. -/
def find_in_branch_list (s : Store) (project commit current : String) :
    List String → Option Metadata
  | [] => none
  | b :: rest =>
    if b = current then find_in_branch_list s project commit current rest
    else
      match s.getMetadata project b commit with
      | some m => some m
      | none => find_in_branch_list s project commit current rest

/-- Second pass of `_find_commit_in_other_branches`: scan the branches
recorded in `_base_branches.json`, skipping the current branch and the
already-checked common branches. -/
def find_in_recorded_branches (s : Store) (project commit current : String) :
    List String → Option Metadata
  | [] => none
  | b :: rest =>
    if b = current then find_in_recorded_branches s project commit current rest
    else if common_base_branches.contains b then
      find_in_recorded_branches s project commit current rest
    else
      match s.getMetadata project b commit with
      | some m => some m
      | none => find_in_recorded_branches s project commit current rest

/-- `BlobCache._find_commit_in_other_branches`: look for the same commit's
metadata on the conventional base branches, then on the branches recorded in
`{project}/_base_branches.json` (skipped entirely when that blob is absent or
malformed). -/
def find_commit_in_other_branches (s : Store) (project current_branch commit : String) :
    Option Metadata :=
  match find_in_branch_list s project commit current_branch common_base_branches with
  | some m => some m
  | none =>
    match s.base_branches project with
    | some (RawJson.ok names) => find_in_recorded_branches s project commit current_branch names
    | _ => none

/-- Which of one publish call's remote writes succeed.  The source catches
each upload exception and turns it into a `False`/ignored result; a field
being `false` models that write raising. -/
structure FaultModel where
  contentPutOk : ContentHash → Bool
  metadataPutOk : Bool
  refMetadataPutOk : Bool
  latestPutOk : Bool

/-- The fault-free model: every remote write succeeds. -/
def no_faults : FaultModel := ⟨fun _ => true, true, true, true⟩

/-- `BlobCache._update_branch_latest`: overwrite `latest.json` with the new
pointer.  The metadata dictionaries built by this file never contain an
`analysis` key, so `metadata.get("analysis", {}).get(...)` always takes the
defaults: `created_at` is the wall clock (`now`) and `analysis_type` is
`"full"`.  Returns `False` (store unchanged) when the upload raises. -/
def update_branch_latest (ok : Bool) (now : String) (s : Store)
    (project branch commit : String) : Bool × Store :=
  let li : LatestInfo := ⟨commit, now, "full"⟩
  if ok then
    (true, { s with latest := fun k =>
        if k = branchKey project branch then some (RawJson.ok li) else s.latest k })
  else (false, s)

/-- A local directory handed to publish: its final path component (the
source computes each file's stored path relative to `local_dir.parent`, so
the directory's own name is the leading component) and its files as
(path-inside-the-directory, bytes) pairs in traversal order. -/
structure LocalDir where
  name : String
  files : List (String × Bytes)

/-- The parent metadata's `content_objects` list
(`[]` when no parent metadata was supplied). -/
def parent_objects (pm : Option Metadata) : List ContentObject :=
  match pm with
  | some m => m.content_objects
  | none => []

/-- The `parent_objects` dict of `upload_context_with_dedup`
(`{obj["file_path"]: obj["content_hash"] for obj in ...}`): a later entry for
the same path overwrites an earlier one, so lookup finds the last entry. -/
def parent_lookup (objs : List ContentObject) (p : String) : Option ContentHash :=
  (objs.reverse.find? (fun o => o.file_path = p)).map (fun o => o.content_hash)

/-- `source_commit` recorded for an inherited file:
`parent_metadata.get("commit_sha", "unknown")`. -/
def parent_commit_of (pm : Option Metadata) : String :=
  match pm with
  | some m => m.commit_sha
  | none => "unknown"

/-- The `content_objects` entry `upload_context_with_dedup` records for one
file: path relative to the directory's parent, content hash, size, and the
provenance rule (hash equal to the parent's at this path → `inherited`
sourced at the parent commit; path present with a different hash →
`updated`; path absent from the parent → `new`). -/
def entry_for (commit : String) (pm : Option Metadata) (dirName : String)
    (pb : String × Bytes) : ContentObject :=
  let rel := dirName ++ "/" ++ pb.1
  let h := compute_file_hash pb.2
  match parent_lookup (parent_objects pm) rel with
  | some ph =>
    if h = ph then ⟨rel, h, pb.2.length, FileSource.inherited, parent_commit_of pm⟩
    else ⟨rel, h, pb.2.length, FileSource.updated, commit⟩
  | none => ⟨rel, h, pb.2.length, FileSource.new, commit⟩

/-- Running state of the file loop of `upload_context_with_dedup`: the store
as mutated so far, the `stats` counters, and the accumulated
`content_objects` list. -/
structure UploadAcc where
  store : Store
  stats_total : Nat
  stats_inherited : Nat
  stats_updated : Nat
  stats_new : Nat
  stats_uploaded : Nat
  objs : List ContentObject

/-- The per-file loop of `upload_context_with_dedup`: hash and classify each
file, append its entry, and upload its content object unless the existence
probe already finds it; a failed upload aborts the whole publish
(`Except.error` carries the store at the failure, with the objects uploaded
so far already written). -/
def process_files (fm : FaultModel) (commit : String) (pm : Option Metadata)
    (dirName : String) : List (String × Bytes) → UploadAcc → Except Store UploadAcc
  | [], acc => Except.ok acc
  | (p, b) :: rest, acc =>
    let obj := entry_for commit pm dirName (p, b)
    let h := obj.content_hash
    let acc1 : UploadAcc :=
      { acc with
        stats_total := acc.stats_total + 1
        stats_inherited := acc.stats_inherited +
          (if obj.source = FileSource.inherited then 1 else 0)
        stats_updated := acc.stats_updated +
          (if obj.source = FileSource.updated then 1 else 0)
        stats_new := acc.stats_new + (if obj.source = FileSource.new then 1 else 0)
        objs := acc.objs ++ [obj] }
    if acc.store.contentExists h then
      process_files fm commit pm dirName rest acc1
    else if fm.contentPutOk h then
      process_files fm commit pm dirName rest
        { acc1 with
          store := acc.store.putContent h b
          stats_uploaded := acc1.stats_uploaded + 1 }
    else Except.error acc1.store

/-- `round(x, 4)` applied to the deduplication ratio before it is stored.
Python rounds floats half-to-even; this model rounds half-up, which agrees
everywhere off exact ten-thousandth ties (no theorem below sits on a tie). -/
def round_to_4 (q : ℚ) : ℚ := ((round (q * 10000) : ℤ) : ℚ) / 10000

/-- The tail of `upload_context_with_dedup` once neither short-circuit fired:
scan and upload the files, then write `metadata.json` and (ignoring its
result) update `latest.json`. -/
def full_publish (fm : FaultModel) (now : String) (s : Store) (dir : LocalDir)
    (project branch commit : String) (pm : Option Metadata) : Bool × Store :=
  match process_files fm commit pm dir.name dir.files ⟨s, 0, 0, 0, 0, 0, []⟩ with
  | Except.error se => (false, se)
  | Except.ok acc =>
    let ratio : ℚ :=
      if acc.stats_total > 0 then (acc.stats_inherited : ℚ) / (acc.stats_total : ℚ) else 0
    let md : Metadata :=
      ⟨commit, branch, project, now, acc.objs,
        ⟨acc.stats_total, acc.stats_inherited, acc.stats_updated, acc.stats_new,
          round_to_4 ratio⟩, none⟩
    if fm.metadataPutOk then
      let s1 := acc.store.putMetadata project branch commit md
      (true, (update_branch_latest fm.latestPutOk now s1 project branch commit).2)
    else (false, acc.store)

/-- `BlobCache.upload_context_with_dedup`: fail if the directory does not
exist; succeed immediately if metadata for this exact (project, branch,
commit) is already readable; else, if another branch has readable metadata
for the same commit, write a reference metadata copying its
`content_objects` and `stats` (falling through to the full publish when that
write raises); else perform the full publish. -/
def upload_context_with_dedup (fm : FaultModel) (now : String) (s : Store)
    (local_dir : Option LocalDir) (project branch commit : String)
    (pm : Option Metadata) : Bool × Store :=
  match local_dir with
  | none => (false, s)
  | some dir =>
    match s.getMetadata project branch commit with
    | some _ => (true, s)
    | none =>
      match find_commit_in_other_branches s project branch commit with
      | some cbm =>
        let refMeta : Metadata :=
          ⟨commit, branch, project, now, cbm.content_objects, cbm.stats,
            some ⟨cbm.branch, commit⟩⟩
        if fm.refMetadataPutOk then
          let s1 := s.putMetadata project branch commit refMeta
          (true, (update_branch_latest fm.latestPutOk now s1 project branch commit).2)
        else full_publish fm now s dir project branch commit pm
      | none => full_publish fm now s dir project branch commit pm

/-- The character list of the `".copilot/"` literal whose length the
download path strips. -/
def copilot_dir_chars : List Char := ".copilot/".data

/-- The compatibility stripping in `download_context`:
`file_path[len(".copilot/"):] if file_path.startswith(".copilot/") else
file_path`, expressed on the path's character sequence. -/
def strip_copilot_dir (p : String) : String :=
  if copilot_dir_chars.isPrefixOf p.data then
    String.mk (p.data.drop copilot_dir_chars.length)
  else p

/-- The download loop of `download_context`: for each entry, strip the
compatibility prefix and fetch the content object; returns the counts of
downloaded and failed entries and the (relative path, bytes) pairs written
under the destination directory, in order. -/
def download_objects (s : Store) : List ContentObject → Nat × Nat × List (String × Bytes)
  | [] => (0, 0, [])
  | obj :: rest =>
    let fp := strip_copilot_dir obj.file_path
    match s.content obj.content_hash with
    | some b =>
      let r := download_objects s rest
      (r.1 + 1, r.2.1, (fp, b) :: r.2.2)
    | none =>
      let r := download_objects s rest
      (r.1, r.2.1 + 1, r.2.2)

/-- `BlobCache.download_context`: read the metadata document (failing when it
is absent or malformed), download every listed content object into the
destination directory, and succeed only when no entry failed.  (The legacy
fallback for pre-content-addressed documents is outside this model: every
document the modelled writer produces has a `content_objects` list.) -/
def download_context (s : Store) (project branch commit : String) :
    Bool × List (String × Bytes) :=
  match s.getMetadata project branch commit with
  | none => (false, [])
  | some md =>
    let r := download_objects s md.content_objects
    (r.2.1 = 0, r.2.2)

/-- The content namespace is consistent with the idealized digest: any stored
content object holds exactly the bytes its key hashes. -/
def ContentConsistent (s : Store) : Prop :=
  ∀ b b' : Bytes, s.content ⟨b⟩ = some b' → b' = b

/-- Every content object of `s` is still present in `t` with the same bytes. -/
def ContentMono (s t : Store) : Prop :=
  ∀ (h : ContentHash) (b : Bytes), s.content h = some b → t.content h = some b

/-- `s` and `t` agree on every namespace except `objects/content/`. -/
def NonContentEq (s t : Store) : Prop :=
  s.metadata = t.metadata ∧ s.latest = t.latest ∧
    s.parent_branch = t.parent_branch ∧ s.base_branches = t.base_branches

/-- The write-ordering invariant: every readable metadata document only
references content objects that exist in the store. -/
def MetadataComplete (s : Store) : Prop :=
  ∀ k m, s.metadata k = some (RawJson.ok m) →
    ∀ o ∈ m.content_objects, (s.content o.content_hash).isSome = true

/-- Number of files of `files` that the provenance rule assigns source `σ`. -/
def source_count (σ : FileSource) (c : String) (pm : Option Metadata) (n : String)
    (files : List (String × Bytes)) : Nat :=
  files.countP (fun pb => decide ((entry_for c pm n pb).source = σ))

/-- The metadata document that a fault-free full publish of `dir` writes:
one entry per file in traversal order, classified by the provenance rule,
with the class counts and the rounded deduplication ratio as stats. -/
def published_metadata (now project branch commit : String) (pm : Option Metadata)
    (dir : LocalDir) : Metadata :=
  ⟨commit, branch, project, now, dir.files.map (entry_for commit pm dir.name),
    ⟨dir.files.length,
      source_count FileSource.inherited commit pm dir.name dir.files,
      source_count FileSource.updated commit pm dir.name dir.files,
      source_count FileSource.new commit pm dir.name dir.files,
      round_to_4 (if 0 < dir.files.length then
        (source_count FileSource.inherited commit pm dir.name dir.files : ℚ) /
          (dir.files.length : ℚ)
      else 0)⟩, none⟩

/-- The given fault model with the `latest.json` write outcome replaced. -/
def set_latest_fault (fm : FaultModel) (b : Bool) : FaultModel :=
  ⟨fm.contentPutOk, fm.metadataPutOk, fm.refMetadataPutOk, b⟩

/-- The store with every malformed metadata blob deleted: resolution treats
the two stores identically. -/
def scrub_malformed (s : Store) : Store :=
  { s with metadata := fun k =>
      match s.metadata k with
      | some RawJson.malformed => none
      | v => v }

/-- A sample metadata document stored at `p/main/c1` in the witnesses. -/
def md_exact : Metadata := ⟨"c1", "main", "p", "t0", [], ⟨0, 0, 0, 0, 0⟩, none⟩

/-- A store holding exactly one readable metadata document, at `p/main/c1`. -/
def store_exact : Store :=
  { emptyStore with metadata := fun k =>
      if k = metaKey "p" "main" "c1" then some (RawJson.ok md_exact) else none }

/-- A store holding exactly one metadata blob, malformed, at `p/main/c1`. -/
def malformed_store : Store :=
  { emptyStore with metadata := fun k =>
      if k = metaKey "p" "main" "c1" then some RawJson.malformed else none }

/-- A store already holding the content object for bytes `[120]`. -/
def seeded_store : Store :=
  { emptyStore with content := fun k => if k = ⟨[120]⟩ then some [120] else none }

/-- Fault model in which every content-object upload raises. -/
def all_content_fail : FaultModel := ⟨fun _ => false, true, true, true⟩

/-- Fault model in which only the `latest.json` write raises. -/
def latest_fail : FaultModel := ⟨fun _ => true, true, true, false⟩

/-- A directory whose final path component is not `.copilot`. -/
def ctx_dir : LocalDir := ⟨"ctx", [("a.txt", [120])]⟩

/-- Publish of `ctx_dir` into the empty store. -/
def ctx_publish : Bool × Store :=
  upload_context_with_dedup no_faults "t1" emptyStore (some ctx_dir) "p" "main" "c1" none

/-- A `.copilot`-named directory with one file. -/
def cop_dir : LocalDir := ⟨".copilot", [("a.txt", [120])]⟩

/-- Two paths with identical bytes, for the dedup scenario. -/
def dup_dir : LocalDir := ⟨".copilot", [("f1", [120]), ("f2", [120])]⟩

/-- Publish of `dup_dir` into the empty store. -/
def dup_publish : Bool × Store :=
  upload_context_with_dedup no_faults "t1" emptyStore (some dup_dir) "p" "main" "c1" none

/-- Metadata readable on a branch outside the cross-branch search set. -/
def exotic_md : Metadata := ⟨"c1", "exotic", "p", "t0",
  [⟨".copilot/f9", ⟨[121]⟩, 1, FileSource.new, "c1"⟩], ⟨1, 0, 0, 1, 0⟩, none⟩

/-- A store whose only metadata lives on the unsearched branch `exotic`. -/
def exotic_store : Store :=
  { emptyStore with metadata := fun k =>
      if k = metaKey "p" "exotic" "c1" then some (RawJson.ok exotic_md) else none }

/-- Publish at the same commit on `feature`, over `exotic_store`. -/
def exotic_publish : Bool × Store :=
  upload_context_with_dedup no_faults "t1" exotic_store
    (some ⟨".copilot", [("f1", [120])]⟩) "p" "feature" "c1" none

/-- First publish of the C6 scenario: `{f1: "x", f2: "y"}` at commit `c1`. -/
def dirA1 : LocalDir := ⟨".copilot", [("f1", [120]), ("f2", [121])]⟩

/-- The C6 scenario's first publish, into the empty store. -/
def pubA : Bool × Store :=
  upload_context_with_dedup no_faults "t1" emptyStore (some dirA1) "p" "main" "c1" none

/-- The metadata the first publish stored, used as parent metadata. -/
def pmA : Option Metadata := pubA.2.getMetadata "p" "main" "c1"

/-- Fault model refusing to upload `f1`'s content object: the second publish
can only succeed if it never re-uploads it. -/
def fmB : FaultModel := ⟨fun h => decide (h ≠ ⟨[120]⟩), true, true, true⟩

/-- Second publish of the C6 scenario: `{f1: "x", f2: "z"}` at commit `c2`. -/
def dirB : LocalDir := ⟨".copilot", [("f1", [120]), ("f2", [122])]⟩

/-- The C6 scenario's second publish, with `c1`'s metadata as parent. -/
def pubB : Bool × Store :=
  upload_context_with_dedup fmB "t2" pubA.2 (some dirB) "p" "main" "c2" pmA

/-- Three files of which exactly one is inherited: the stored ratio is
`round(1/3, 4)`, not `1/3`. -/
def dir3 : LocalDir := ⟨".copilot", [("f1", [120]), ("f2", [122]), ("f3", [123])]⟩

/-- Publish of `dir3` at `c2` with `c1`'s metadata as parent. -/
def pub3 : Bool × Store :=
  upload_context_with_dedup no_faults "t2" pubA.2 (some dir3) "p" "main" "c2" pmA

lemma contentMono_refl (s : Store) : ContentMono s s := fun _ _ hb => hb

lemma contentMono_trans {s t u : Store} (h1 : ContentMono s t) (h2 : ContentMono t u) :
    ContentMono s u := fun h b hb => h2 h b (h1 h b hb)

lemma nonContentEq_refl (s : Store) : NonContentEq s s := ⟨rfl, rfl, rfl, rfl⟩

lemma nonContentEq_trans {s t u : Store} (h1 : NonContentEq s t) (h2 : NonContentEq t u) :
    NonContentEq s u :=
  ⟨h1.1.trans h2.1, h1.2.1.trans h2.2.1, h1.2.2.1.trans h2.2.2.1, h1.2.2.2.trans h2.2.2.2⟩

lemma putContent_nonContentEq (s : Store) (h : ContentHash) (b : Bytes) :
    NonContentEq s (s.putContent h b) := ⟨rfl, rfl, rfl, rfl⟩

lemma putContent_mono (s : Store) (h : ContentHash) (b : Bytes)
    (habs : s.content h = none) : ContentMono s (s.putContent h b) := by
  intro k c hk
  simp only [Store.putContent]
  by_cases hkh : k = h
  · rw [hkh] at hk; rw [hk] at habs; exact absurd habs (by simp)
  · simp [hkh, hk]

/-- The fields of the content-object entry recorded for one file, independent
of how the file is classified. -/
lemma entry_for_fields (c : String) (pm : Option Metadata) (n : String) (pb : String × Bytes) :
    (entry_for c pm n pb).file_path = n ++ "/" ++ pb.1 ∧
      (entry_for c pm n pb).content_hash = compute_file_hash pb.2 ∧
      (entry_for c pm n pb).size = pb.2.length := by
  simp only [entry_for]
  split <;> (try split) <;> simp

/-- The per-file loop touches only the content namespace, and only ever adds
content objects, in the success and in the failure case alike. -/
lemma process_files_effects (fm : FaultModel) (c : String) (pm : Option Metadata)
    (n : String) :
    ∀ (files : List (String × Bytes)) (acc : UploadAcc),
      (∀ acc', process_files fm c pm n files acc = Except.ok acc' →
        NonContentEq acc.store acc'.store ∧ ContentMono acc.store acc'.store) ∧
      (∀ se, process_files fm c pm n files acc = Except.error se →
        NonContentEq acc.store se ∧ ContentMono acc.store se) := by
  intro files
  induction files with
  | nil =>
    intro acc
    refine ⟨fun acc' hok => ?_, fun se herr => ?_⟩
    · simp only [process_files] at hok
      cases hok
      exact ⟨nonContentEq_refl _, contentMono_refl _⟩
    · simp only [process_files] at herr
      cases herr
  | cons pb rest ih =>
    obtain ⟨p, b⟩ := pb
    intro acc
    constructor
    · intro acc' hok
      simp only [process_files] at hok
      split at hok
      · have hstep := (ih _).1 acc' hok
        exact hstep
      · split at hok
        · rename_i hex hput
          have hstep := (ih _).1 acc' hok
          have habs : acc.store.content (entry_for c pm n (p, b)).content_hash = none := by
            simp only [Store.contentExists, Option.isSome] at hex
            split at hex
            · exact absurd hex (by simp)
            · assumption
          refine ⟨nonContentEq_trans (putContent_nonContentEq _ _ _) hstep.1,
            contentMono_trans (putContent_mono _ _ _ habs) hstep.2⟩
        · cases hok
    · intro se herr
      simp only [process_files] at herr
      split at herr
      · have hstep := (ih _).2 se herr
        exact hstep
      · split at herr
        · rename_i hex hput
          have hstep := (ih _).2 se herr
          have habs : acc.store.content (entry_for c pm n (p, b)).content_hash = none := by
            simp only [Store.contentExists, Option.isSome] at hex
            split at hex
            · exact absurd hex (by simp)
            · assumption
          refine ⟨nonContentEq_trans (putContent_nonContentEq _ _ _) hstep.1,
            contentMono_trans (putContent_mono _ _ _ habs) hstep.2⟩
        · cases herr
          exact ⟨nonContentEq_refl _, contentMono_refl _⟩

/-- If every object listed in the accumulator is present in its store, the
same holds after a successful pass of the per-file loop. -/
lemma process_files_objs_present (fm : FaultModel) (c : String) (pm : Option Metadata)
    (n : String) :
    ∀ (files : List (String × Bytes)) (acc acc' : UploadAcc),
      process_files fm c pm n files acc = Except.ok acc' →
      (∀ o ∈ acc.objs, (acc.store.content o.content_hash).isSome = true) →
      ∀ o ∈ acc'.objs, (acc'.store.content o.content_hash).isSome = true := by
  intro files
  induction files with
  | nil =>
    intro acc acc' hok hpres
    simp only [process_files] at hok
    cases hok
    exact hpres
  | cons pb rest ih =>
    obtain ⟨p, b⟩ := pb
    intro acc acc' hok hpres
    simp only [process_files] at hok
    split at hok
    · rename_i hex
      refine ih _ acc' hok ?_
      intro o ho
      simp only [List.mem_append, List.mem_singleton] at ho
      rcases ho with ho | rfl
      · exact hpres o ho
      · exact hex
    · split at hok
      · rename_i hex hput
        refine ih _ acc' hok ?_
        intro o ho
        simp only [List.mem_append, List.mem_singleton] at ho
        have hco := (entry_for_fields c pm n (p, b)).2.1
        rcases ho with ho | rfl
        · have := hpres o ho
          simp only [Store.putContent]
          rcases hsome : acc.store.content o.content_hash with _ | v
          · rw [hsome] at this; simp at this
          · split <;> simp
        · simp only [Store.putContent, hco]
          simp
      · cases hok

lemma putContent_consistent {s : Store} (b : Bytes) (hcons : ContentConsistent s) :
    ContentConsistent (s.putContent (compute_file_hash b) b) := by
  intro b0 b0' hb0
  simp only [Store.putContent, compute_file_hash] at hb0
  by_cases hkey : (⟨b0⟩ : ContentHash) = ⟨b⟩
  · rw [if_pos hkey] at hb0
    cases hb0
    cases hkey
    rfl
  · rw [if_neg hkey] at hb0
    exact hcons b0 b0' hb0

/-- Success run of the per-file loop: when every file's content object can be
uploaded (or already exists) the loop succeeds, counts each provenance class,
appends the per-file entries in order, and leaves every file's content
object stored under its hash. -/
lemma process_files_success_spec (fm : FaultModel) (c : String) (pm : Option Metadata)
    (n : String) :
    ∀ (files : List (String × Bytes)) (acc : UploadAcc),
      ContentConsistent acc.store →
      (∀ pb ∈ files, fm.contentPutOk (compute_file_hash pb.2) = true ∨
        (acc.store.content (compute_file_hash pb.2)).isSome = true) →
      ∃ (s' : Store) (u : Nat),
        process_files fm c pm n files acc = Except.ok
          ⟨s', acc.stats_total + files.length,
            acc.stats_inherited + source_count FileSource.inherited c pm n files,
            acc.stats_updated + source_count FileSource.updated c pm n files,
            acc.stats_new + source_count FileSource.new c pm n files,
            u, acc.objs ++ files.map (entry_for c pm n)⟩ ∧
        ContentConsistent s' ∧ ContentMono acc.store s' ∧
        (∀ pb ∈ files, s'.content (compute_file_hash pb.2) = some pb.2) := by
  intro files
  induction files with
  | nil =>
    intro acc hcons _
    refine ⟨acc.store, acc.stats_uploaded, ?_, hcons, contentMono_refl _, by simp⟩
    simp only [process_files, source_count, List.countP_nil, List.length_nil,
      Nat.add_zero, List.map_nil, List.append_nil]
  | cons pb rest ih =>
    obtain ⟨p, b⟩ := pb
    intro acc hcons hfault
    have hhash : (entry_for c pm n (p, b)).content_hash = compute_file_hash b :=
      (entry_for_fields c pm n (p, b)).2.1
    by_cases hex : acc.store.contentExists (entry_for c pm n (p, b)).content_hash = true
    · -- the content object already exists: dedup skips the upload
      have hcb : acc.store.content (compute_file_hash b) = some b := by
        rw [hhash] at hex
        simp only [Store.contentExists] at hex
        rcases hsome : acc.store.content (compute_file_hash b) with _ | v
        · rw [hsome] at hex; simp at hex
        · have hvb := hcons b v (by exact hsome)
          rw [hvb]
      obtain ⟨s', u, hok, hcons', hmono, hpres⟩ := ih
        { acc with
          stats_total := acc.stats_total + 1
          stats_inherited := acc.stats_inherited +
            (if (entry_for c pm n (p, b)).source = FileSource.inherited then 1 else 0)
          stats_updated := acc.stats_updated +
            (if (entry_for c pm n (p, b)).source = FileSource.updated then 1 else 0)
          stats_new := acc.stats_new +
            (if (entry_for c pm n (p, b)).source = FileSource.new then 1 else 0)
          objs := acc.objs ++ [entry_for c pm n (p, b)] }
        hcons (fun pb hpb => hfault pb (List.mem_cons_of_mem _ hpb))
      refine ⟨s', u, ?_, hcons', hmono, ?_⟩
      · simp only [process_files, hex, if_true]
        refine hok.trans ?_
        simp only [Except.ok.injEq, UploadAcc.mk.injEq, source_count, List.countP_cons,
          decide_eq_true_eq, List.map_cons, List.length_cons, List.append_assoc,
          List.singleton_append]
        try and_intros
        all_goals first | rfl | ring
      · intro pb hpb
        rcases List.mem_cons.mp hpb with rfl | hpb
        · exact hmono _ _ hcb
        · exact hpres pb hpb
    · -- absent: the loop uploads it
      have hput : fm.contentPutOk (entry_for c pm n (p, b)).content_hash = true := by
        rw [hhash]
        rcases hfault (p, b) (List.mem_cons_self _ _) with hp | hp
        · exact hp
        · rw [hhash] at hex
          simp only [Store.contentExists] at hex
          exact absurd hp hex
      have habs : acc.store.content (compute_file_hash b) = none := by
        rw [hhash] at hex
        simp only [Store.contentExists] at hex
        rcases hsome : acc.store.content (compute_file_hash b) with _ | v
        · rfl
        · rw [hsome] at hex; simp at hex
      have hmono0 : ContentMono acc.store
          (acc.store.putContent (compute_file_hash b) b) := by
        refine putContent_mono _ _ _ habs
      obtain ⟨s', u, hok, hcons', hmono, hpres⟩ := ih
        { store := acc.store.putContent (compute_file_hash b) b
          stats_total := acc.stats_total + 1
          stats_inherited := acc.stats_inherited +
            (if (entry_for c pm n (p, b)).source = FileSource.inherited then 1 else 0)
          stats_updated := acc.stats_updated +
            (if (entry_for c pm n (p, b)).source = FileSource.updated then 1 else 0)
          stats_new := acc.stats_new +
            (if (entry_for c pm n (p, b)).source = FileSource.new then 1 else 0)
          stats_uploaded := acc.stats_uploaded + 1
          objs := acc.objs ++ [entry_for c pm n (p, b)] }
        (putContent_consistent b hcons)
        (by
          intro pb hpb
          rcases hfault pb (List.mem_cons_of_mem _ hpb) with hp | hp
          · exact Or.inl hp
          · refine Or.inr ?_
            rcases hsome : acc.store.content (compute_file_hash pb.2) with _ | v
            · rw [hsome] at hp; simp at hp
            · rw [hmono0 _ _ hsome]; rfl)
      refine ⟨s', u, ?_, hcons', contentMono_trans hmono0 hmono, ?_⟩
      · simp only [process_files]
        rw [hhash] at hex hput
        rw [hhash, if_neg hex, if_pos hput]
        refine hok.trans ?_
        simp only [Except.ok.injEq, UploadAcc.mk.injEq, source_count, List.countP_cons,
          decide_eq_true_eq, List.map_cons, List.length_cons, List.append_assoc,
          List.singleton_append]
        try and_intros
        all_goals first | rfl | ring
      · intro pb hpb
        rcases List.mem_cons.mp hpb with rfl | hpb
        · refine hmono _ _ ?_
          simp [Store.putContent]
        · exact hpres pb hpb

/-- Stripping the compatibility prefix undoes prepending the `.copilot`
directory name that upload bakes into each stored path. -/
lemma strip_copilot_dir_prepend (p : String) :
    strip_copilot_dir (".copilot" ++ "/" ++ p) = p := by
  have hdata : (".copilot" ++ "/" ++ p).data = copilot_dir_chars ++ p.data := rfl
  have hpre : copilot_dir_chars.isPrefixOf ((".copilot" ++ "/" ++ p).data) = true := by
    rw [hdata, List.isPrefixOf_iff_prefix]
    exact List.prefix_append _ _
  unfold strip_copilot_dir
  rw [if_pos hpre, hdata, List.drop_left]

/-- When every listed content object is present with its own bytes, the
download loop downloads everything, fails nothing, and writes the stripped
path of each entry with the object's bytes, in order. -/
lemma download_objects_all_present (s : Store) :
    ∀ objs : List ContentObject,
      (∀ o ∈ objs, s.content o.content_hash = some o.content_hash.bytes) →
      download_objects s objs =
        (objs.length, 0,
          objs.map (fun o => (strip_copilot_dir o.file_path, o.content_hash.bytes))) := by
  intro objs
  induction objs with
  | nil => intro _; rfl
  | cons o rest ih =>
    intro hpres
    have ho := hpres o (List.mem_cons_self _ _)
    simp only [download_objects, ho]
    rw [ih (fun o' ho' => hpres o' (List.mem_cons_of_mem _ ho'))]
    simp

/-- Effects of `_update_branch_latest` on the store, per success flag. -/
lemma update_branch_latest_effects (ok : Bool) (now : String) (s : Store)
    (project branch commit : String) :
    ((update_branch_latest ok now s project branch commit).2.content = s.content) ∧
    ((update_branch_latest ok now s project branch commit).2.metadata = s.metadata) ∧
    ((update_branch_latest ok now s project branch commit).2.parent_branch = s.parent_branch) ∧
    ((update_branch_latest ok now s project branch commit).2.base_branches = s.base_branches) ∧
    (ok = true → (update_branch_latest ok now s project branch commit).2.latest
      (branchKey project branch) = some (RawJson.ok ⟨commit, now, "full"⟩)) ∧
    (ok = false → (update_branch_latest ok now s project branch commit).2.latest = s.latest) ∧
    (∀ k, k ≠ branchKey project branch →
      (update_branch_latest ok now s project branch commit).2.latest k = s.latest k) := by
  cases ok
  · refine ⟨rfl, rfl, rfl, rfl, ?_, fun _ => rfl, fun k _ => rfl⟩
    intro h
    exact absurd h (by simp)
  · refine ⟨rfl, rfl, rfl, rfl, fun _ => ?_, ?_, fun k hk => ?_⟩
    · simp [update_branch_latest]
    · intro h
      exact absurd h (by simp)
    · simp [update_branch_latest, hk]

/-- A full publish whose content uploads can all succeed (each file's object
is either uploadable or already stored) and whose metadata write succeeds:
it returns `True`, writes exactly `published_metadata` under the commit's
key, touches no other metadata key, keeps the content namespace consistent
and monotone, stores every file's bytes under its hash, and updates
`latest.json` exactly when that write succeeds. -/
lemma full_publish_spec (fm : FaultModel) (now : String) (s : Store) (dir : LocalDir)
    (project branch commit : String) (pm : Option Metadata)
    (hcons : ContentConsistent s)
    (hfault : ∀ pb ∈ dir.files, fm.contentPutOk (compute_file_hash pb.2) = true ∨
      (s.content (compute_file_hash pb.2)).isSome = true)
    (hmeta : fm.metadataPutOk = true) :
    ∃ s2, full_publish fm now s dir project branch commit pm = (true, s2) ∧
      s2.getMetadata project branch commit =
        some (published_metadata now project branch commit pm dir) ∧
      (∀ k, k ≠ metaKey project branch commit → s2.metadata k = s.metadata k) ∧
      ContentConsistent s2 ∧ ContentMono s s2 ∧
      (∀ pb ∈ dir.files, s2.content (compute_file_hash pb.2) = some pb.2) ∧
      s2.parent_branch = s.parent_branch ∧ s2.base_branches = s.base_branches ∧
      (fm.latestPutOk = true →
        s2.latest (branchKey project branch) = some (RawJson.ok ⟨commit, now, "full"⟩)) ∧
      (fm.latestPutOk = false → s2.latest = s.latest) ∧
      (∀ k, k ≠ branchKey project branch → s2.latest k = s.latest k) := by
  obtain ⟨s', u, hok, hcons', hmono, hpres⟩ :=
    process_files_success_spec fm commit pm dir.name dir.files ⟨s, 0, 0, 0, 0, 0, []⟩
      hcons hfault
  have hnce : NonContentEq s s' :=
    ((process_files_effects fm commit pm dir.name dir.files ⟨s, 0, 0, 0, 0, 0, []⟩).1 _ hok).1
  have hupd := update_branch_latest_effects fm.latestPutOk now
    (s'.putMetadata project branch commit (published_metadata now project branch commit pm dir))
    project branch commit
  refine ⟨(update_branch_latest fm.latestPutOk now
      (s'.putMetadata project branch commit (published_metadata now project branch commit pm dir))
      project branch commit).2, ?_, ?_, ?_, ?_, ?_, ?_, ?_, ?_, ?_, ?_, ?_⟩
  · unfold full_publish
    rw [hok]
    simp only [hmeta, if_true, published_metadata, Nat.zero_add, List.nil_append]
  · rw [Store.getMetadata, hupd.2.1]
    simp [Store.putMetadata]
  · intro k hk
    rw [hupd.2.1]
    simp only [Store.putMetadata, if_neg hk]
    exact (congrFun hnce.1 k).symm
  · intro b b' hb
    rw [hupd.1] at hb
    exact hcons' b b' hb
  · intro h b hb
    rw [hupd.1]
    exact hmono h b hb
  · intro pb hpb
    rw [hupd.1]
    exact hpres pb hpb
  · rw [hupd.2.2.1]
    exact hnce.2.2.1.symm
  · rw [hupd.2.2.2.1]
    exact hnce.2.2.2.symm
  · exact hupd.2.2.2.2.1
  · intro h
    rw [hupd.2.2.2.2.2.1 h]
    exact hnce.2.1.symm
  · intro k hk
    rw [hupd.2.2.2.2.2.2 k hk]
    exact (congrFun hnce.2.1 k).symm

lemma Store.getMetadata_eq_some {s : Store} {project branch commit : String} {m : Metadata} :
    s.getMetadata project branch commit = some m ↔
      s.metadata (metaKey project branch commit) = some (RawJson.ok m) := by
  unfold Store.getMetadata
  rcases h : s.metadata (metaKey project branch commit) with _ | raw
  · simp
  · cases raw <;> simp

/-- Idempotent short-circuit of `upload_context_with_dedup`: readable
metadata for the exact key makes publish return success with the store
untouched. -/
lemma upload_existing (fm : FaultModel) (now : String) (s : Store) (dir : LocalDir)
    (project branch commit : String) (pm : Option Metadata) (m : Metadata)
    (h : s.getMetadata project branch commit = some m) :
    upload_context_with_dedup fm now s (some dir) project branch commit pm = (true, s) := by
  unfold upload_context_with_dedup
  rw [h]

/-- With neither short-circuit firing, publish is the full publish. -/
lemma upload_full_path (fm : FaultModel) (now : String) (s : Store) (dir : LocalDir)
    (project branch commit : String) (pm : Option Metadata)
    (h1 : s.getMetadata project branch commit = none)
    (h2 : find_commit_in_other_branches s project branch commit = none) :
    upload_context_with_dedup fm now s (some dir) project branch commit pm =
      full_publish fm now s dir project branch commit pm := by
  unfold upload_context_with_dedup
  rw [h1, h2]

/-- The cross-branch reference path: same-commit metadata found on another
branch and a succeeding reference write.  Publishes a copy of its
`content_objects`/`stats` and updates `latest.json`. -/
lemma upload_ref_path (fm : FaultModel) (now : String) (s : Store) (dir : LocalDir)
    (project branch commit : String) (pm : Option Metadata) (cbm : Metadata)
    (h1 : s.getMetadata project branch commit = none)
    (h2 : find_commit_in_other_branches s project branch commit = some cbm)
    (href : fm.refMetadataPutOk = true) :
    upload_context_with_dedup fm now s (some dir) project branch commit pm =
      (true, (update_branch_latest fm.latestPutOk now
        (s.putMetadata project branch commit
          ⟨commit, branch, project, now, cbm.content_objects, cbm.stats,
            some ⟨cbm.branch, commit⟩⟩)
        project branch commit).2) := by
  unfold upload_context_with_dedup
  rw [h1, h2]
  simp [href]

/-- A failing reference write falls through to the full publish. -/
lemma upload_ref_fallthrough (fm : FaultModel) (now : String) (s : Store) (dir : LocalDir)
    (project branch commit : String) (pm : Option Metadata) (cbm : Metadata)
    (h1 : s.getMetadata project branch commit = none)
    (h2 : find_commit_in_other_branches s project branch commit = some cbm)
    (href : fm.refMetadataPutOk = false) :
    upload_context_with_dedup fm now s (some dir) project branch commit pm =
      full_publish fm now s dir project branch commit pm := by
  unfold upload_context_with_dedup
  rw [h1, h2]
  simp [href]

lemma find_in_branch_list_readable (s : Store) (project commit current : String) :
    ∀ (bs : List String) (m : Metadata), find_in_branch_list s project commit current bs = some m →
      ∃ k, s.metadata k = some (RawJson.ok m) := by
  intro bs
  induction bs with
  | nil => intro m h; cases h
  | cons b rest ih =>
    intro m h
    simp only [find_in_branch_list] at h
    split at h
    · exact ih m h
    · rcases hg : s.getMetadata project b commit with _ | m0
      · rw [hg] at h
        exact ih m h
      · rw [hg] at h
        cases h
        exact ⟨metaKey project b commit, Store.getMetadata_eq_some.mp hg⟩

lemma find_in_recorded_branches_readable (s : Store) (project commit current : String) :
    ∀ (bs : List String) (m : Metadata),
      find_in_recorded_branches s project commit current bs = some m →
      ∃ k, s.metadata k = some (RawJson.ok m) := by
  intro bs
  induction bs with
  | nil => intro m h; cases h
  | cons b rest ih =>
    intro m h
    simp only [find_in_recorded_branches] at h
    split at h
    · exact ih m h
    · split at h
      · exact ih m h
      · rcases hg : s.getMetadata project b commit with _ | m0
        · rw [hg] at h
          exact ih m h
        · rw [hg] at h
          cases h
          exact ⟨metaKey project b commit, Store.getMetadata_eq_some.mp hg⟩

/-- Whatever the cross-branch search returns was readable in the store. -/
lemma find_commit_in_other_branches_readable (s : Store) (project current commit : String)
    (m : Metadata) (h : find_commit_in_other_branches s project current commit = some m) :
    ∃ k, s.metadata k = some (RawJson.ok m) := by
  unfold find_commit_in_other_branches at h
  rcases h1 : find_in_branch_list s project commit current common_base_branches with _ | m0
  · rw [h1] at h
    rcases h2 : s.base_branches project with _ | raw
    · rw [h2] at h; cases h
    · rw [h2] at h
      cases raw with
      | malformed => cases h
      | ok names => exact find_in_recorded_branches_readable s project commit current names m h
  · rw [h1] at h
    cases h
    exact find_in_branch_list_readable s project commit current common_base_branches m h1

lemma contentMono_isSome {s t : Store} (hmono : ContentMono s t) (h : ContentHash)
    (hs : (s.content h).isSome = true) : (t.content h).isSome = true := by
  rcases hsome : s.content h with _ | b
  · rw [hsome] at hs; simp at hs
  · rw [hmono h b hsome]; rfl

lemma full_publish_error_eq (fm : FaultModel) (now : String) (s : Store) (dir : LocalDir)
    (project branch commit : String) (pm : Option Metadata) (se : Store)
    (hpf : process_files fm commit pm dir.name dir.files ⟨s, 0, 0, 0, 0, 0, []⟩ =
      Except.error se) :
    full_publish fm now s dir project branch commit pm = (false, se) := by
  unfold full_publish
  rw [hpf]

lemma full_publish_metaFail_eq (fm : FaultModel) (now : String) (s : Store) (dir : LocalDir)
    (project branch commit : String) (pm : Option Metadata) (acc : UploadAcc)
    (hpf : process_files fm commit pm dir.name dir.files ⟨s, 0, 0, 0, 0, 0, []⟩ =
      Except.ok acc)
    (hmp : fm.metadataPutOk = false) :
    full_publish fm now s dir project branch commit pm = (false, acc.store) := by
  unfold full_publish
  rw [hpf]
  simp [hmp]

lemma full_publish_metaOk_eq (fm : FaultModel) (now : String) (s : Store) (dir : LocalDir)
    (project branch commit : String) (pm : Option Metadata) (acc : UploadAcc)
    (hpf : process_files fm commit pm dir.name dir.files ⟨s, 0, 0, 0, 0, 0, []⟩ =
      Except.ok acc)
    (hmp : fm.metadataPutOk = true) :
    full_publish fm now s dir project branch commit pm =
      (true, (update_branch_latest fm.latestPutOk now
        (acc.store.putMetadata project branch commit
          ⟨commit, branch, project, now, acc.objs,
            ⟨acc.stats_total, acc.stats_inherited, acc.stats_updated, acc.stats_new,
              round_to_4 (if acc.stats_total > 0 then
                (acc.stats_inherited : ℚ) / (acc.stats_total : ℚ) else 0)⟩, none⟩)
        project branch commit).2) := by
  unfold full_publish
  rw [hpf]
  simp [hmp]

lemma full_publish_failure_frame (fm : FaultModel) (now : String) (s : Store)
    (dir : LocalDir) (project branch commit : String) (pm : Option Metadata)
    (hfail : (full_publish fm now s dir project branch commit pm).1 = false) :
    NonContentEq s (full_publish fm now s dir project branch commit pm).2 ∧
      ContentMono s (full_publish fm now s dir project branch commit pm).2 := by
  cases hpf : process_files fm commit pm dir.name dir.files ⟨s, 0, 0, 0, 0, 0, []⟩ with
  | error se =>
    rw [full_publish_error_eq fm now s dir project branch commit pm se hpf]
    exact (process_files_effects fm commit pm dir.name dir.files ⟨s, 0, 0, 0, 0, 0, []⟩).2
      se hpf
  | ok acc =>
    rcases hmp : fm.metadataPutOk with _ | _
    · rw [full_publish_metaFail_eq fm now s dir project branch commit pm acc hpf hmp]
      exact (process_files_effects fm commit pm dir.name dir.files ⟨s, 0, 0, 0, 0, 0, []⟩).1
        acc hpf
    · rw [full_publish_metaOk_eq fm now s dir project branch commit pm acc hpf hmp] at hfail
      cases hfail

lemma full_publish_preserves_complete (fm : FaultModel) (now : String) (s : Store)
    (dir : LocalDir) (project branch commit : String) (pm : Option Metadata)
    (hmc : MetadataComplete s) :
    MetadataComplete (full_publish fm now s dir project branch commit pm).2 := by
  cases hpf : process_files fm commit pm dir.name dir.files ⟨s, 0, 0, 0, 0, 0, []⟩ with
  | error se =>
    have heff := (process_files_effects fm commit pm dir.name dir.files
      ⟨s, 0, 0, 0, 0, 0, []⟩).2 se hpf
    rw [full_publish_error_eq fm now s dir project branch commit pm se hpf]
    intro k m hk o ho
    rw [← heff.1.1] at hk
    exact contentMono_isSome heff.2 _ (hmc k m hk o ho)
  | ok acc =>
    have heff := (process_files_effects fm commit pm dir.name dir.files
      ⟨s, 0, 0, 0, 0, 0, []⟩).1 acc hpf
    have hobjs := process_files_objs_present fm commit pm dir.name dir.files
      ⟨s, 0, 0, 0, 0, 0, []⟩ acc hpf (by intro o ho; cases ho)
    rcases hmp : fm.metadataPutOk with _ | _
    · rw [full_publish_metaFail_eq fm now s dir project branch commit pm acc hpf hmp]
      intro k m hk o ho
      rw [← heff.1.1] at hk
      exact contentMono_isSome heff.2 _ (hmc k m hk o ho)
    · rw [full_publish_metaOk_eq fm now s dir project branch commit pm acc hpf hmp]
      have hupd := update_branch_latest_effects fm.latestPutOk now
        (acc.store.putMetadata project branch commit
          ⟨commit, branch, project, now, acc.objs,
            ⟨acc.stats_total, acc.stats_inherited, acc.stats_updated, acc.stats_new,
              round_to_4 (if acc.stats_total > 0 then
                (acc.stats_inherited : ℚ) / (acc.stats_total : ℚ) else 0)⟩, none⟩)
        project branch commit
      intro k m hk o ho
      rw [hupd.2.1] at hk
      rw [hupd.1]
      simp only [Store.putMetadata] at hk ⊢
      by_cases hkey : k = metaKey project branch commit
      · rw [if_pos hkey] at hk
        cases hk
        exact hobjs o ho
      · rw [if_neg hkey] at hk
        rw [← heff.1.1] at hk
        exact contentMono_isSome heff.2 _ (hmc k m hk o ho)

/-- A failed publish never touches any namespace except (monotonically) the
content objects: metadata, latest, fork and base-branch documents are all
exactly as before. -/
lemma upload_failure_frame (fm : FaultModel) (now : String) (s : Store)
    (ld : Option LocalDir) (project branch commit : String) (pm : Option Metadata)
    (hfail : (upload_context_with_dedup fm now s ld project branch commit pm).1 = false) :
    NonContentEq s (upload_context_with_dedup fm now s ld project branch commit pm).2 ∧
      ContentMono s (upload_context_with_dedup fm now s ld project branch commit pm).2 := by
  cases ld with
  | none => exact ⟨nonContentEq_refl s, contentMono_refl s⟩
  | some dir =>
    rcases hm : s.getMetadata project branch commit with _ | m
    · rcases hcb : find_commit_in_other_branches s project branch commit with _ | cbm
      · rw [upload_full_path fm now s dir project branch commit pm hm hcb] at hfail ⊢
        exact full_publish_failure_frame fm now s dir project branch commit pm hfail
      · rcases href : fm.refMetadataPutOk with _ | _
        · rw [upload_ref_fallthrough fm now s dir project branch commit pm cbm hm hcb href]
            at hfail ⊢
          exact full_publish_failure_frame fm now s dir project branch commit pm hfail
        · rw [upload_ref_path fm now s dir project branch commit pm cbm hm hcb href] at hfail
          cases hfail
    · rw [upload_existing fm now s dir project branch commit pm m hm] at hfail
      cases hfail

/-- Publish preserves the write-ordering invariant: after any publish, every
readable metadata document still only references stored content objects. -/
lemma upload_preserves_complete (fm : FaultModel) (now : String) (s : Store)
    (ld : Option LocalDir) (project branch commit : String) (pm : Option Metadata)
    (hmc : MetadataComplete s) :
    MetadataComplete (upload_context_with_dedup fm now s ld project branch commit pm).2 := by
  cases ld with
  | none => exact hmc
  | some dir =>
    rcases hm : s.getMetadata project branch commit with _ | m
    · rcases hcb : find_commit_in_other_branches s project branch commit with _ | cbm
      · rw [upload_full_path fm now s dir project branch commit pm hm hcb]
        exact full_publish_preserves_complete fm now s dir project branch commit pm hmc
      · rcases href : fm.refMetadataPutOk with _ | _
        · rw [upload_ref_fallthrough fm now s dir project branch commit pm cbm hm hcb href]
          exact full_publish_preserves_complete fm now s dir project branch commit pm hmc
        · rw [upload_ref_path fm now s dir project branch commit pm cbm hm hcb href]
          obtain ⟨k0, hk0⟩ := find_commit_in_other_branches_readable s project branch commit
            cbm hcb
          have hupd := update_branch_latest_effects fm.latestPutOk now
            (s.putMetadata project branch commit
              ⟨commit, branch, project, now, cbm.content_objects, cbm.stats,
                some ⟨cbm.branch, commit⟩⟩) project branch commit
          intro k m hk o ho
          rw [hupd.2.1] at hk
          rw [hupd.1]
          simp only [Store.putMetadata] at hk ⊢
          by_cases hkey : k = metaKey project branch commit
          · rw [if_pos hkey] at hk
            cases hk
            exact hmc k0 cbm hk0 o ho
          · rw [if_neg hkey] at hk
            exact hmc k m hk o ho
    · rw [upload_existing fm now s dir project branch commit pm m hm]
      exact hmc

lemma process_files_congr (fm fm' : FaultModel) (h : fm.contentPutOk = fm'.contentPutOk)
    (c : String) (pm : Option Metadata) (n : String) :
    ∀ (files : List (String × Bytes)) (acc : UploadAcc),
      process_files fm c pm n files acc = process_files fm' c pm n files acc := by
  intro files
  induction files with
  | nil => intro acc; rfl
  | cons pb rest ih =>
    obtain ⟨p, b⟩ := pb
    intro acc
    simp only [process_files, h, ih]

lemma full_publish_fst_ignores_latest (fm : FaultModel) (b : Bool) (now : String)
    (s : Store) (dir : LocalDir) (project branch commit : String) (pm : Option Metadata) :
    (full_publish (set_latest_fault fm b) now s dir project branch commit pm).1 =
      (full_publish fm now s dir project branch commit pm).1 := by
  have hpe := process_files_congr (set_latest_fault fm b) fm rfl commit pm dir.name
    dir.files ⟨s, 0, 0, 0, 0, 0, []⟩
  cases hpf : process_files fm commit pm dir.name dir.files ⟨s, 0, 0, 0, 0, 0, []⟩ with
  | error se =>
    rw [full_publish_error_eq fm now s dir project branch commit pm se hpf,
      full_publish_error_eq (set_latest_fault fm b) now s dir project branch commit pm se
        (hpe.trans hpf)]
  | ok acc =>
    rcases hmp : fm.metadataPutOk with _ | _
    · rw [full_publish_metaFail_eq fm now s dir project branch commit pm acc hpf hmp,
        full_publish_metaFail_eq (set_latest_fault fm b) now s dir project branch commit pm
          acc (hpe.trans hpf) hmp]
    · rw [full_publish_metaOk_eq fm now s dir project branch commit pm acc hpf hmp,
        full_publish_metaOk_eq (set_latest_fault fm b) now s dir project branch commit pm
          acc (hpe.trans hpf) hmp]

/-- The publish return value never depends on whether the `latest.json`
write succeeded (its boolean result is discarded). -/
lemma upload_fst_ignores_latest (fm : FaultModel) (b : Bool) (now : String) (s : Store)
    (ld : Option LocalDir) (project branch commit : String) (pm : Option Metadata) :
    (upload_context_with_dedup (set_latest_fault fm b) now s ld project branch commit pm).1 =
      (upload_context_with_dedup fm now s ld project branch commit pm).1 := by
  cases ld with
  | none => rfl
  | some dir =>
    rcases hm : s.getMetadata project branch commit with _ | m
    · rcases hcb : find_commit_in_other_branches s project branch commit with _ | cbm
      · rw [upload_full_path fm now s dir project branch commit pm hm hcb,
          upload_full_path (set_latest_fault fm b) now s dir project branch commit pm hm hcb]
        exact full_publish_fst_ignores_latest fm b now s dir project branch commit pm
      · rcases href : fm.refMetadataPutOk with _ | _
        · rw [upload_ref_fallthrough fm now s dir project branch commit pm cbm hm hcb href,
            upload_ref_fallthrough (set_latest_fault fm b) now s dir project branch commit pm
              cbm hm hcb href]
          exact full_publish_fst_ignores_latest fm b now s dir project branch commit pm
        · rw [upload_ref_path fm now s dir project branch commit pm cbm hm hcb href,
            upload_ref_path (set_latest_fault fm b) now s dir project branch commit pm
              cbm hm hcb href]
    · rw [upload_existing fm now s dir project branch commit pm m hm,
        upload_existing (set_latest_fault fm b) now s dir project branch commit pm m hm]

lemma full_publish_latest_unchanged (fm : FaultModel) (now : String) (s : Store)
    (dir : LocalDir) (project branch commit : String) (pm : Option Metadata)
    (hl : fm.latestPutOk = false) :
    (full_publish fm now s dir project branch commit pm).2.latest = s.latest := by
  cases hpf : process_files fm commit pm dir.name dir.files ⟨s, 0, 0, 0, 0, 0, []⟩ with
  | error se =>
    rw [full_publish_error_eq fm now s dir project branch commit pm se hpf]
    exact ((process_files_effects fm commit pm dir.name dir.files
      ⟨s, 0, 0, 0, 0, 0, []⟩).2 se hpf).1.2.1.symm
  | ok acc =>
    rcases hmp : fm.metadataPutOk with _ | _
    · rw [full_publish_metaFail_eq fm now s dir project branch commit pm acc hpf hmp]
      exact ((process_files_effects fm commit pm dir.name dir.files
        ⟨s, 0, 0, 0, 0, 0, []⟩).1 acc hpf).1.2.1.symm
    · rw [full_publish_metaOk_eq fm now s dir project branch commit pm acc hpf hmp]
      have hupd := update_branch_latest_effects fm.latestPutOk now
        (acc.store.putMetadata project branch commit
          ⟨commit, branch, project, now, acc.objs,
            ⟨acc.stats_total, acc.stats_inherited, acc.stats_updated, acc.stats_new,
              round_to_4 (if acc.stats_total > 0 then
                (acc.stats_inherited : ℚ) / (acc.stats_total : ℚ) else 0)⟩, none⟩)
        project branch commit
      rw [hupd.2.2.2.2.2.1 hl]
      exact ((process_files_effects fm commit pm dir.name dir.files
        ⟨s, 0, 0, 0, 0, 0, []⟩).1 acc hpf).1.2.1.symm

/-- When the `latest.json` write fails, the branch pointer namespace is left
exactly as it was, whatever else the publish did. -/
lemma upload_latest_unchanged (fm : FaultModel) (now : String) (s : Store)
    (ld : Option LocalDir) (project branch commit : String) (pm : Option Metadata)
    (hl : fm.latestPutOk = false) :
    (upload_context_with_dedup fm now s ld project branch commit pm).2.latest = s.latest := by
  cases ld with
  | none => rfl
  | some dir =>
    rcases hm : s.getMetadata project branch commit with _ | m
    · rcases hcb : find_commit_in_other_branches s project branch commit with _ | cbm
      · rw [upload_full_path fm now s dir project branch commit pm hm hcb]
        exact full_publish_latest_unchanged fm now s dir project branch commit pm hl
      · rcases href : fm.refMetadataPutOk with _ | _
        · rw [upload_ref_fallthrough fm now s dir project branch commit pm cbm hm hcb href]
          exact full_publish_latest_unchanged fm now s dir project branch commit pm hl
        · rw [upload_ref_path fm now s dir project branch commit pm cbm hm hcb href]
          have hupd := update_branch_latest_effects fm.latestPutOk now
            (s.putMetadata project branch commit
              ⟨commit, branch, project, now, cbm.content_objects, cbm.stats,
                some ⟨cbm.branch, commit⟩⟩) project branch commit
          exact hupd.2.2.2.2.2.1 hl
    · rw [upload_existing fm now s dir project branch commit pm m hm]

/-- A `True` publish return guarantees readable metadata at the exact key. -/
lemma upload_true_metadata_visible (fm : FaultModel) (now : String) (s : Store)
    (ld : Option LocalDir) (project branch commit : String) (pm : Option Metadata)
    (ht : (upload_context_with_dedup fm now s ld project branch commit pm).1 = true) :
    ((upload_context_with_dedup fm now s ld project branch commit pm).2.getMetadata
      project branch commit).isSome = true := by
  cases ld with
  | none => cases ht
  | some dir =>
    rcases hm : s.getMetadata project branch commit with _ | m
    · have hfull : ∀ (hfp : upload_context_with_dedup fm now s (some dir) project branch
          commit pm = full_publish fm now s dir project branch commit pm),
          ((upload_context_with_dedup fm now s (some dir) project branch commit pm).2.getMetadata
            project branch commit).isSome = true := by
        intro hfp
        rw [hfp] at ht ⊢
        cases hpf : process_files fm commit pm dir.name dir.files ⟨s, 0, 0, 0, 0, 0, []⟩ with
        | error se =>
          rw [full_publish_error_eq fm now s dir project branch commit pm se hpf] at ht
          cases ht
        | ok acc =>
          rcases hmp : fm.metadataPutOk with _ | _
          · rw [full_publish_metaFail_eq fm now s dir project branch commit pm acc hpf hmp]
              at ht
            cases ht
          · rw [full_publish_metaOk_eq fm now s dir project branch commit pm acc hpf hmp]
            have hupd := update_branch_latest_effects fm.latestPutOk now
              (acc.store.putMetadata project branch commit
                ⟨commit, branch, project, now, acc.objs,
                  ⟨acc.stats_total, acc.stats_inherited, acc.stats_updated, acc.stats_new,
                    round_to_4 (if acc.stats_total > 0 then
                      (acc.stats_inherited : ℚ) / (acc.stats_total : ℚ) else 0)⟩, none⟩)
              project branch commit
            unfold Store.getMetadata
            rw [hupd.2.1]
            simp [Store.putMetadata]
      rcases hcb : find_commit_in_other_branches s project branch commit with _ | cbm
      · exact hfull (upload_full_path fm now s dir project branch commit pm hm hcb)
      · rcases href : fm.refMetadataPutOk with _ | _
        · exact hfull
            (upload_ref_fallthrough fm now s dir project branch commit pm cbm hm hcb href)
        · rw [upload_ref_path fm now s dir project branch commit pm cbm hm hcb href]
          have hupd := update_branch_latest_effects fm.latestPutOk now
            (s.putMetadata project branch commit
              ⟨commit, branch, project, now, cbm.content_objects, cbm.stats,
                some ⟨cbm.branch, commit⟩⟩) project branch commit
          unfold Store.getMetadata
          rw [hupd.2.1]
          simp [Store.putMetadata]
    · rw [upload_existing fm now s dir project branch commit pm m hm]
      simp [hm]

lemma full_publish_content_mono (fm : FaultModel) (now : String) (s : Store)
    (dir : LocalDir) (project branch commit : String) (pm : Option Metadata) :
    ContentMono s (full_publish fm now s dir project branch commit pm).2 := by
  cases hpf : process_files fm commit pm dir.name dir.files ⟨s, 0, 0, 0, 0, 0, []⟩ with
  | error se =>
    rw [full_publish_error_eq fm now s dir project branch commit pm se hpf]
    exact ((process_files_effects fm commit pm dir.name dir.files
      ⟨s, 0, 0, 0, 0, 0, []⟩).2 se hpf).2
  | ok acc =>
    have hmono := ((process_files_effects fm commit pm dir.name dir.files
      ⟨s, 0, 0, 0, 0, 0, []⟩).1 acc hpf).2
    rcases hmp : fm.metadataPutOk with _ | _
    · rw [full_publish_metaFail_eq fm now s dir project branch commit pm acc hpf hmp]
      exact hmono
    · rw [full_publish_metaOk_eq fm now s dir project branch commit pm acc hpf hmp]
      have hupd := update_branch_latest_effects fm.latestPutOk now
        (acc.store.putMetadata project branch commit
          ⟨commit, branch, project, now, acc.objs,
            ⟨acc.stats_total, acc.stats_inherited, acc.stats_updated, acc.stats_new,
              round_to_4 (if acc.stats_total > 0 then
                (acc.stats_inherited : ℚ) / (acc.stats_total : ℚ) else 0)⟩, none⟩)
        project branch commit
      intro h b hb
      rw [hupd.1]
      exact hmono h b hb

/-- Publish never overwrites or removes a stored content object: whatever
bytes a hash held before are still held after, on every publish path. -/
lemma upload_content_mono (fm : FaultModel) (now : String) (s : Store)
    (ld : Option LocalDir) (project branch commit : String) (pm : Option Metadata) :
    ContentMono s (upload_context_with_dedup fm now s ld project branch commit pm).2 := by
  cases ld with
  | none => exact contentMono_refl s
  | some dir =>
    rcases hm : s.getMetadata project branch commit with _ | m
    · rcases hcb : find_commit_in_other_branches s project branch commit with _ | cbm
      · rw [upload_full_path fm now s dir project branch commit pm hm hcb]
        exact full_publish_content_mono fm now s dir project branch commit pm
      · rcases href : fm.refMetadataPutOk with _ | _
        · rw [upload_ref_fallthrough fm now s dir project branch commit pm cbm hm hcb href]
          exact full_publish_content_mono fm now s dir project branch commit pm
        · rw [upload_ref_path fm now s dir project branch commit pm cbm hm hcb href]
          have hupd := update_branch_latest_effects fm.latestPutOk now
            (s.putMetadata project branch commit
              ⟨commit, branch, project, now, cbm.content_objects, cbm.stats,
                some ⟨cbm.branch, commit⟩⟩) project branch commit
          intro h b hb
          rw [hupd.1]
          exact hb
    · rw [upload_existing fm now s dir project branch commit pm m hm]
      exact contentMono_refl s

lemma scrub_getMetadata (s : Store) (project branch commit : String) :
    (scrub_malformed s).getMetadata project branch commit =
      s.getMetadata project branch commit := by
  unfold Store.getMetadata scrub_malformed
  rcases h : s.metadata (metaKey project branch commit) with _ | raw
  · simp [h]
  · cases raw <;> simp [h]

lemma scrub_getBranchLatest (s : Store) (project branch : String) :
    (scrub_malformed s).getBranchLatest project branch = s.getBranchLatest project branch := rfl

lemma scrub_getBaseBranchInfo (s : Store) (project branch : String) :
    (scrub_malformed s).getBaseBranchInfo project branch =
      s.getBaseBranchInfo project branch := rfl

/-- C1: `find_best_context` evaluates its tiers in the fixed order — exact
commit, parent commit (only when supplied), branch latest (only when the
latest pointer's commit differs from the target), base-branch fork — and
returns the first tier with readable metadata under the strategies
`exact`/`incremental`/`incremental`/`cross-branch`; in particular an exact
hit always wins, and when every tier misses the result has `found = false`
and strategy `full_analysis`. -/
theorem find_best_context_tier_order (s : Store) (project branch commit : String)
    (parent_commit : Option String) :
    (∀ m, s.getMetadata project branch commit = some m →
      find_best_context s project branch commit parent_commit =
        ⟨true, some commit, some m, "exact", none⟩) ∧
    (s.getMetadata project branch commit = none →
      ∀ pc m, parent_commit = some pc → s.getMetadata project branch pc = some m →
        find_best_context s project branch commit parent_commit =
          ⟨true, some pc, some m, "incremental", none⟩) ∧
    (s.getMetadata project branch commit = none →
      (∀ pc, parent_commit = some pc → s.getMetadata project branch pc = none) →
      ∀ li m, s.getBranchLatest project branch = some li → li.commit_sha ≠ commit →
        s.getMetadata project branch li.commit_sha = some m →
        find_best_context s project branch commit parent_commit =
          ⟨true, some li.commit_sha, some m, "incremental", none⟩) ∧
    (s.getMetadata project branch commit = none →
      (∀ pc, parent_commit = some pc → s.getMetadata project branch pc = none) →
      (∀ li, s.getBranchLatest project branch = some li → li.commit_sha ≠ commit →
        s.getMetadata project branch li.commit_sha = none) →
      ∀ fi m, s.getBaseBranchInfo project branch = some fi →
        s.getMetadata project fi.base_branch fi.base_commit = some m →
        find_best_context s project branch commit parent_commit =
          ⟨true, some fi.base_commit, some m, "cross-branch", some fi.base_branch⟩) ∧
    (s.getMetadata project branch commit = none →
      (∀ pc, parent_commit = some pc → s.getMetadata project branch pc = none) →
      (∀ li, s.getBranchLatest project branch = some li → li.commit_sha ≠ commit →
        s.getMetadata project branch li.commit_sha = none) →
      (∀ fi, s.getBaseBranchInfo project branch = some fi →
        s.getMetadata project fi.base_branch fi.base_commit = none) →
      find_best_context s project branch commit parent_commit =
        ⟨false, none, none, "full_analysis", none⟩) := by
  have hlatest : ∀ (h3 : ∀ li, s.getBranchLatest project branch = some li →
      li.commit_sha ≠ commit → s.getMetadata project branch li.commit_sha = none),
      resolve_branch_latest s project branch commit = resolve_base_branch s project branch := by
    intro h3
    unfold resolve_branch_latest
    rcases hli : s.getBranchLatest project branch with _ | li
    · rfl
    · by_cases hsame : li.commit_sha = commit
      · simp [hsame]
      · simp [hsame, h3 li hli hsame]
  have hbase : ∀ (h4 : ∀ fi, s.getBaseBranchInfo project branch = some fi →
      s.getMetadata project fi.base_branch fi.base_commit = none),
      resolve_base_branch s project branch = no_cache_result := by
    intro h4
    unfold resolve_base_branch
    rcases hfi : s.getBaseBranchInfo project branch with _ | fi
    · rfl
    · simp [h4 fi hfi]
  refine ⟨?_, ?_, ?_, ?_, ?_⟩
  · intro m hm
    simp [find_best_context, hm]
  · intro h0 pc m hpc hm
    subst hpc
    simp [find_best_context, h0, hm]
  · intro h0 hpar li m hli hne hm
    have hstep : resolve_branch_latest s project branch commit =
        ⟨true, some li.commit_sha, some m, "incremental", none⟩ := by
      unfold resolve_branch_latest
      rw [hli]
      simp [hne, hm]
    rcases parent_commit with _ | pc
    · simp [find_best_context, h0, hstep]
    · simp [find_best_context, h0, hpar pc rfl, hstep]
  · intro h0 hpar h3 fi m hfi hm
    have hstep : resolve_base_branch s project branch =
        ⟨true, some fi.base_commit, some m, "cross-branch", some fi.base_branch⟩ := by
      unfold resolve_base_branch
      rw [hfi]
      simp [hm]
    rcases parent_commit with _ | pc
    · simp [find_best_context, h0, hlatest h3, hstep]
    · simp [find_best_context, h0, hpar pc rfl, hlatest h3, hstep]
  · intro h0 hpar h3 h4
    rcases parent_commit with _ | pc
    · simp [find_best_context, h0, hlatest h3, hbase h4, no_cache_result]
    · simp [find_best_context, h0, hpar pc rfl, hlatest h3, hbase h4, no_cache_result]

/-- C9: a stored metadata blob that fails to parse is read as `None`
(exactly like an absent blob), and resolution over a store with malformed
metadata blobs equals resolution over the store with those blobs deleted —
a malformed record can only demote a query to the next tier, never make
`find_best_context` fail. -/
theorem malformed_metadata_read_as_missing (s : Store) (project branch commit : String)
    (parent_commit : Option String) :
    (s.metadata (metaKey project branch commit) = some RawJson.malformed →
      s.getMetadata project branch commit = none) ∧
    find_best_context s project branch commit parent_commit =
      find_best_context (scrub_malformed s) project branch commit parent_commit := by
  constructor
  · intro h
    unfold Store.getMetadata
    rw [h]
  · simp only [find_best_context, resolve_branch_latest, resolve_base_branch,
      scrub_getMetadata, scrub_getBranchLatest, scrub_getBaseBranchInfo]

/-- C3: a failing publish never writes (or changes) any metadata document —
the metadata namespace is exactly as before — and publish preserves the
write-ordering invariant that every readable metadata document references
only stored content objects. -/
theorem publish_failure_atomicity (fm : FaultModel) (now : String) (s : Store)
    (ld : Option LocalDir) (project branch commit : String) (pm : Option Metadata) :
    ((upload_context_with_dedup fm now s ld project branch commit pm).1 = false →
      (upload_context_with_dedup fm now s ld project branch commit pm).2.metadata =
        s.metadata) ∧
    (MetadataComplete s →
      MetadataComplete (upload_context_with_dedup fm now s ld project branch commit pm).2) := by
  refine ⟨fun hfail => ?_, fun hmc =>
    upload_preserves_complete fm now s ld project branch commit pm hmc⟩
  exact ((upload_failure_frame fm now s ld project branch commit pm hfail).1.1).symm

/-- Witness for C3 at a concrete failing publish: every content upload
raises, the publish fails, and the (empty) metadata namespace is untouched. -/
theorem publish_failure_atomicity_witness :
    (upload_context_with_dedup all_content_fail "t1" emptyStore
      (some ⟨".copilot", [("f1", [120])]⟩) "p" "main" "c1" none).2.metadata =
        emptyStore.metadata ∧
    MetadataComplete (upload_context_with_dedup all_content_fail "t1" emptyStore
      (some ⟨".copilot", [("f1", [120])]⟩) "p" "main" "c1" none).2 :=
  ⟨(publish_failure_atomicity all_content_fail "t1" emptyStore
      (some ⟨".copilot", [("f1", [120])]⟩) "p" "main" "c1" none).1 rfl,
    (publish_failure_atomicity all_content_fail "t1" emptyStore
      (some ⟨".copilot", [("f1", [120])]⟩) "p" "main" "c1" none).2
      (fun _ _ hk => nomatch hk)⟩

/-- C4: publish is idempotent — when readable metadata already exists for
the exact (project, branch, commit), publish returns success with the store
completely unchanged: nothing is hashed, no content object is uploaded or
duplicated, and the stored metadata document is bit-for-bit the old one. -/
theorem publish_idempotent (fm : FaultModel) (now : String) (s : Store) (dir : LocalDir)
    (project branch commit : String) (pm : Option Metadata) (m : Metadata)
    (h : s.getMetadata project branch commit = some m) :
    upload_context_with_dedup fm now s (some dir) project branch commit pm = (true, s) :=
  upload_existing fm now s dir project branch commit pm m h

/-- Witness for C4: re-publishing `p/main/c1` over a store that already has
its metadata returns success and the identical store. -/
theorem publish_idempotent_witness :
    upload_context_with_dedup no_faults "t1" store_exact (some ⟨".copilot", []⟩)
      "p" "main" "c1" none = (true, store_exact) :=
  publish_idempotent no_faults "t1" store_exact ⟨".copilot", []⟩ "p" "main" "c1" none
    md_exact rfl

/-- C5: content objects are immutable and deduplicated — no publish ever
changes the bytes stored under a hash (an existing object is left alone and
counts as upload success), and publishing two files with identical bytes
under different paths stores exactly one content object while the metadata
lists two entries referencing that single hash. -/
theorem content_objects_immutable_dedup (fm : FaultModel) (now : String) (s : Store)
    (ld : Option LocalDir) (project branch commit : String) (pm : Option Metadata) :
    (∀ (h : ContentHash) (b : Bytes), s.content h = some b →
      (upload_context_with_dedup fm now s ld project branch commit pm).2.content h =
        some b) ∧
    dup_publish.1 = true ∧
    (dup_publish.2.getMetadata "p" "main" "c1").map (fun m => m.content_objects) =
      some [⟨".copilot/f1", ⟨[120]⟩, 1, FileSource.new, "c1"⟩,
        ⟨".copilot/f2", ⟨[120]⟩, 1, FileSource.new, "c1"⟩] ∧
    (∀ h, dup_publish.2.content h = if h = ⟨[120]⟩ then some [120] else none) := by
  refine ⟨upload_content_mono fm now s ld project branch commit pm, rfl, rfl, ?_⟩
  intro h
  rfl

/-- Witness for C5: a pre-stored object survives a publish that dedups
against it. -/
theorem content_objects_immutable_dedup_witness :
    (upload_context_with_dedup no_faults "t1" seeded_store
      (some ⟨".copilot", [("f1", [120])]⟩) "p" "main" "c1" none).2.content ⟨[120]⟩ =
      some [120] :=
  (content_objects_immutable_dedup no_faults "t1" seeded_store
    (some ⟨".copilot", [("f1", [120])]⟩) "p" "main" "c1" none).1 ⟨[120]⟩ [120] rfl

/-- C10: the publish return value never depends on the branch-latest update
(its boolean result is discarded); when the latest write fails the pointer
namespace is untouched (so `latest.json` need not point at the published
commit), while a `True` return still guarantees readable metadata at the
published key. -/
theorem publish_ignores_latest_result (fm : FaultModel) (now : String) (s : Store)
    (ld : Option LocalDir) (project branch commit : String) (pm : Option Metadata) :
    ((upload_context_with_dedup (set_latest_fault fm true) now s ld project branch
        commit pm).1 =
      (upload_context_with_dedup (set_latest_fault fm false) now s ld project branch
        commit pm).1) ∧
    (fm.latestPutOk = false →
      (upload_context_with_dedup fm now s ld project branch commit pm).2.latest =
        s.latest) ∧
    ((upload_context_with_dedup fm now s ld project branch commit pm).1 = true →
      ((upload_context_with_dedup fm now s ld project branch commit pm).2.getMetadata
        project branch commit).isSome = true) :=
  ⟨(upload_fst_ignores_latest fm true now s ld project branch commit pm).trans
      (upload_fst_ignores_latest fm false now s ld project branch commit pm).symm,
    fun hl => upload_latest_unchanged fm now s ld project branch commit pm hl,
    fun ht => upload_true_metadata_visible fm now s ld project branch commit pm ht⟩

/-- Witness for C10 at a concrete publish whose `latest.json` write fails:
the return value matches the all-writes-succeed run, the pointer namespace
is untouched, and the metadata is visible. -/
theorem publish_ignores_latest_result_witness :
    ((upload_context_with_dedup (set_latest_fault latest_fail true) "t1" emptyStore
        (some cop_dir) "p" "main" "c1" none).1 =
      (upload_context_with_dedup (set_latest_fault latest_fail false) "t1" emptyStore
        (some cop_dir) "p" "main" "c1" none).1) ∧
    (upload_context_with_dedup latest_fail "t1" emptyStore (some cop_dir) "p" "main"
      "c1" none).2.latest = emptyStore.latest ∧
    ((upload_context_with_dedup latest_fail "t1" emptyStore (some cop_dir) "p" "main"
      "c1" none).2.getMetadata "p" "main" "c1").isSome = true :=
  ⟨(publish_ignores_latest_result latest_fail "t1" emptyStore (some cop_dir) "p" "main"
      "c1" none).1,
    (publish_ignores_latest_result latest_fail "t1" emptyStore (some cop_dir) "p" "main"
      "c1" none).2.1 rfl,
    (publish_ignores_latest_result latest_fail "t1" emptyStore (some cop_dir) "p" "main"
      "c1" none).2.2 rfl⟩

/-- Counterexample to C2 as stated: publishing a directory whose final path
component is `ctx` (not `.copilot`) succeeds, but materializing it returns
the file under the extra leading component `ctx/` — not the directory's own
relative path. -/
theorem round_trip_renames_counterexample :
    ctx_publish.1 = true ∧
    download_context ctx_publish.2 "p" "main" "c1" = (true, [("ctx/a.txt", [120])]) ∧
    [("ctx/a.txt", ([120] : Bytes))] ≠ ctx_dir.files :=
  ⟨rfl, rfl, by decide⟩

/-- C2 (amended): for a directory whose final path component is `.copilot`
(the layout the cache is built for), publishing into a content-consistent
store with no metadata at the exact key and no same-commit metadata on
another branch, then materializing the same (project, branch, commit),
reproduces exactly the directory's relative paths with byte-identical
content. -/
theorem round_trip_copilot_dir (now : String) (s : Store) (dir : LocalDir)
    (project branch commit : String) (pm : Option Metadata)
    (hname : dir.name = ".copilot")
    (hcons : ContentConsistent s)
    (hm : s.getMetadata project branch commit = none)
    (hcb : find_commit_in_other_branches s project branch commit = none) :
    (upload_context_with_dedup no_faults now s (some dir) project branch commit pm).1 =
      true ∧
    download_context (upload_context_with_dedup no_faults now s (some dir) project branch
      commit pm).2 project branch commit = (true, dir.files) := by
  rw [upload_full_path no_faults now s dir project branch commit pm hm hcb]
  obtain ⟨s2, heq, hgm, hother, hcons2, hmono, hpres, hpb, hbb, hlat, hlatf, hlatk⟩ :=
    full_publish_spec no_faults now s dir project branch commit pm hcons
      (fun pb _ => Or.inl rfl) rfl
  rw [heq]
  refine ⟨rfl, ?_⟩
  have hall : ∀ o ∈ (published_metadata now project branch commit pm dir).content_objects,
      s2.content o.content_hash = some o.content_hash.bytes := by
    intro o ho
    simp only [published_metadata, List.mem_map] at ho
    obtain ⟨pb, hpbmem, rfl⟩ := ho
    rw [(entry_for_fields commit pm dir.name pb).2.1]
    exact hpres pb hpbmem
  have hmaps : ((published_metadata now project branch commit pm dir).content_objects).map
      (fun o => (strip_copilot_dir o.file_path, o.content_hash.bytes)) = dir.files := by
    simp only [published_metadata, List.map_map]
    have hpt : ∀ pb ∈ dir.files,
        ((fun o => (strip_copilot_dir o.file_path, o.content_hash.bytes)) ∘
          entry_for commit pm dir.name) pb = pb := by
      intro pb _
      have hf := entry_for_fields commit pm dir.name pb
      simp only [Function.comp_apply, hf.1, hf.2.1, compute_file_hash]
      rw [hname, strip_copilot_dir_prepend]
    rw [List.map_congr_left hpt]
    simp
  have hdl : download_context s2 project branch commit =
      (decide ((download_objects s2 (published_metadata now project branch commit pm
          dir).content_objects).2.1 = 0),
        (download_objects s2 (published_metadata now project branch commit pm
          dir).content_objects).2.2) := by
    unfold download_context
    rw [hgm]
  rw [hdl, download_objects_all_present s2 _ hall, hmaps]
  simp

/-- Witness for the amended C2 at a `.copilot` directory over the empty
store. -/
theorem round_trip_copilot_dir_witness :
    (upload_context_with_dedup no_faults "t1" emptyStore (some cop_dir) "p" "main" "c1"
      none).1 = true ∧
    download_context (upload_context_with_dedup no_faults "t1" emptyStore (some cop_dir)
      "p" "main" "c1" none).2 "p" "main" "c1" = (true, cop_dir.files) :=
  round_trip_copilot_dir "t1" emptyStore cop_dir "p" "main" "c1" none rfl
    (fun _ _ h => nomatch h) rfl rfl

/-- Counterexample to C7 as stated: readable same-commit metadata on the
branch `exotic` — which is neither a conventional base branch nor recorded
in `_base_branches.json` — is not found by publish, which performs a full
publish instead: the new metadata is not a copy of the other branch's and a
content object is uploaded. -/
theorem cross_branch_unsearched_counterexample :
    exotic_store.getMetadata "p" "exotic" "c1" = some exotic_md ∧
    exotic_publish.1 = true ∧
    (exotic_publish.2.getMetadata "p" "feature" "c1").map (fun m => m.content_objects) =
      some [⟨".copilot/f1", ⟨[120]⟩, 1, FileSource.new, "c1"⟩] ∧
    some [(⟨".copilot/f1", ⟨[120]⟩, 1, FileSource.new, "c1"⟩ : ContentObject)] ≠
      some exotic_md.content_objects ∧
    exotic_store.content ⟨[120]⟩ = none ∧
    exotic_publish.2.content ⟨[120]⟩ = some [120] :=
  ⟨rfl, rfl, rfl, by decide, rfl, rfl⟩

/-- C7 (amended): when the cross-branch search (the conventional base
branches plus the recorded base-branch list) finds readable metadata for the
same commit, no metadata exists yet at this (branch, commit), and the
reference and latest writes succeed, publish writes a new metadata document
copying that document's `content_objects` and `stats` verbatim, updates the
branch-latest pointer, and returns success with the content namespace
untouched (nothing hashed or uploaded). -/
theorem cross_branch_reference_publish (fm : FaultModel) (now : String) (s : Store)
    (dir : LocalDir) (project branch commit : String) (pm : Option Metadata)
    (cbm : Metadata)
    (hm : s.getMetadata project branch commit = none)
    (hcb : find_commit_in_other_branches s project branch commit = some cbm)
    (href : fm.refMetadataPutOk = true)
    (hl : fm.latestPutOk = true) :
    (upload_context_with_dedup fm now s (some dir) project branch commit pm).1 = true ∧
    (upload_context_with_dedup fm now s (some dir) project branch commit pm).2.getMetadata
      project branch commit =
      some ⟨commit, branch, project, now, cbm.content_objects, cbm.stats,
        some ⟨cbm.branch, commit⟩⟩ ∧
    (upload_context_with_dedup fm now s (some dir) project branch commit pm).2.content =
      s.content ∧
    (upload_context_with_dedup fm now s (some dir) project branch commit pm).2.latest
      (branchKey project branch) = some (RawJson.ok ⟨commit, now, "full"⟩) := by
  rw [upload_ref_path fm now s dir project branch commit pm cbm hm hcb href]
  have hupd := update_branch_latest_effects fm.latestPutOk now
    (s.putMetadata project branch commit
      ⟨commit, branch, project, now, cbm.content_objects, cbm.stats,
        some ⟨cbm.branch, commit⟩⟩) project branch commit
  refine ⟨rfl, ?_, ?_, hupd.2.2.2.2.1 hl⟩
  · unfold Store.getMetadata
    rw [hupd.2.1]
    simp [Store.putMetadata]
  · rw [hupd.1]
    rfl

/-- Witness for the amended C7: branch `feature` reuses `p/main/c1`. -/
theorem cross_branch_reference_publish_witness :
    (upload_context_with_dedup no_faults "t1" store_exact (some cop_dir) "p" "feature"
      "c1" none).1 = true ∧
    (upload_context_with_dedup no_faults "t1" store_exact (some cop_dir) "p" "feature"
      "c1" none).2.getMetadata "p" "feature" "c1" =
      some ⟨"c1", "feature", "p", "t1", md_exact.content_objects, md_exact.stats,
        some ⟨md_exact.branch, "c1"⟩⟩ ∧
    (upload_context_with_dedup no_faults "t1" store_exact (some cop_dir) "p" "feature"
      "c1" none).2.content = store_exact.content ∧
    (upload_context_with_dedup no_faults "t1" store_exact (some cop_dir) "p" "feature"
      "c1" none).2.latest (branchKey "p" "feature") =
      some (RawJson.ok ⟨"c1", "t1", "full"⟩) :=
  cross_branch_reference_publish no_faults "t1" store_exact cop_dir "p" "feature" "c1"
    none md_exact rfl rfl rfl rfl

lemma round_to_4_zero : round_to_4 0 = 0 := by
  simp [round_to_4]

/-- C8: publishing an existing but empty directory is not an error: with no
short-circuit applicable it succeeds and writes a valid metadata document
with an empty `content_objects` list and all-zero stats. -/
theorem publish_empty_dir (fm : FaultModel) (now : String) (s : Store)
    (project branch commit : String) (pm : Option Metadata) (name : String)
    (hm : s.getMetadata project branch commit = none)
    (hcb : find_commit_in_other_branches s project branch commit = none)
    (hmeta : fm.metadataPutOk = true) :
    (upload_context_with_dedup fm now s (some ⟨name, []⟩) project branch commit pm).1 =
      true ∧
    (upload_context_with_dedup fm now s (some ⟨name, []⟩) project branch commit
      pm).2.getMetadata project branch commit =
      some ⟨commit, branch, project, now, [], ⟨0, 0, 0, 0, 0⟩, none⟩ := by
  have hpf : process_files fm commit pm (⟨name, []⟩ : LocalDir).name
      (⟨name, []⟩ : LocalDir).files ⟨s, 0, 0, 0, 0, 0, []⟩ =
      Except.ok ⟨s, 0, 0, 0, 0, 0, []⟩ := rfl
  have heq := full_publish_metaOk_eq fm now s ⟨name, []⟩ project branch commit pm
    ⟨s, 0, 0, 0, 0, 0, []⟩ hpf hmeta
  rw [upload_full_path fm now s ⟨name, []⟩ project branch commit pm hm hcb, heq]
  refine ⟨rfl, ?_⟩
  have hupd := update_branch_latest_effects fm.latestPutOk now
    (s.putMetadata project branch commit
      ⟨commit, branch, project, now, [],
        ⟨0, 0, 0, 0, round_to_4 (if (0 : Nat) > 0 then ((0 : Nat) : ℚ) / ((0 : Nat) : ℚ)
          else 0)⟩, none⟩) project branch commit
  unfold Store.getMetadata
  rw [hupd.2.1]
  simp [Store.putMetadata, round_to_4_zero]

/-- Witness for C8 over the empty store. -/
theorem publish_empty_dir_witness :
    (upload_context_with_dedup no_faults "t1" emptyStore (some ⟨".copilot", []⟩)
      "p" "main" "c1" none).1 = true ∧
    (upload_context_with_dedup no_faults "t1" emptyStore (some ⟨".copilot", []⟩)
      "p" "main" "c1" none).2.getMetadata "p" "main" "c1" =
      some ⟨"c1", "main", "p", "t1", [], ⟨0, 0, 0, 0, 0⟩, none⟩ :=
  publish_empty_dir no_faults "t1" emptyStore "p" "main" "c1" none ".copilot" rfl rfl rfl

/-- The provenance rule, read off one file's recorded entry: hash equal to
the parent's at the same stored path means inherited, a path absent from
the parent means new, anything else means updated. -/
lemma entry_for_source (c : String) (pm : Option Metadata) (n : String)
    (pb : String × Bytes) :
    (entry_for c pm n pb).source =
      (match parent_lookup (parent_objects pm) (n ++ "/" ++ pb.1) with
       | some ph => if compute_file_hash pb.2 = ph then FileSource.inherited
          else FileSource.updated
       | none => FileSource.new) := by
  rcases hpl : parent_lookup (parent_objects pm) (n ++ "/" ++ pb.1) with _ | ph
  · simp [entry_for, hpl]
  · by_cases hc : compute_file_hash pb.2 = ph <;> simp [entry_for, hpl, hc]

lemma round_to_4_half :
    round_to_4 (if (2 : Nat) > 0 then ((1 : Nat) : ℚ) / ((2 : Nat) : ℚ) else 0) =
      (1 : ℚ) / 2 := by
  norm_num [round_to_4, round_eq]

lemma round_to_4_third :
    round_to_4 (if (3 : Nat) > 0 then ((1 : Nat) : ℚ) / ((3 : Nat) : ℚ) else 0) =
      (3333 : ℚ) / 10000 := by
  norm_num [round_to_4, round_eq]

/-- Counterexample to C6 as stated: with three files of which one is
inherited, the stored `deduplication_ratio` is `0.3333` — the ratio rounded
to four decimal places — which differs from `inherited_files / total_files
= 1/3`. -/
theorem dedup_ratio_rounding_counterexample :
    pub3.1 = true ∧
    (pub3.2.getMetadata "p" "main" "c2").map (fun m =>
      (m.stats.total_files, m.stats.inherited_files)) = some (3, 1) ∧
    (pub3.2.getMetadata "p" "main" "c2").map (fun m => m.stats.deduplication_ratio) =
      some ((3333 : ℚ) / 10000) ∧
    (3333 : ℚ) / 10000 ≠ (1 : ℚ) / 3 := by
  refine ⟨rfl, rfl, ?_, by norm_num⟩
  have hr : (pub3.2.getMetadata "p" "main" "c2").map (fun m => m.stats.deduplication_ratio) =
      some (round_to_4 (if (3 : Nat) > 0 then ((1 : Nat) : ℚ) / ((3 : Nat) : ℚ) else 0)) :=
    rfl
  rw [hr, round_to_4_third]

/-- C6 (amended): under a full publish, each file is classified by the rule
(hash equal to the parent's at the same path → inherited, path absent from
the parent → new, otherwise updated), the stats record the per-class counts,
and `deduplication_ratio` is `inherited_files / total_files` rounded to four
decimal places (`0` when `total_files` is 0); the concrete scenario
publishes `{f1:x, f2:y}` at `c1` and `{f1:x, f2:z}` at `c2` with `c1`'s
metadata as parent, reporting `inherited=1, updated=1, new=0, ratio=0.5`,
and `f1`'s content object is written only during `c1`'s publish (the second
publish succeeds even under a fault model that refuses to upload it). -/
theorem publish_stats_classification (fm : FaultModel) (now : String) (s : Store)
    (dir : LocalDir) (project branch commit : String) (pm : Option Metadata)
    (hm : s.getMetadata project branch commit = none)
    (hcb : find_commit_in_other_branches s project branch commit = none)
    (hcons : ContentConsistent s)
    (hfault : ∀ pb ∈ dir.files, fm.contentPutOk (compute_file_hash pb.2) = true ∨
      (s.content (compute_file_hash pb.2)).isSome = true)
    (hmeta : fm.metadataPutOk = true) :
    (∃ md, (upload_context_with_dedup fm now s (some dir) project branch commit pm).1 =
        true ∧
      (upload_context_with_dedup fm now s (some dir) project branch commit
        pm).2.getMetadata project branch commit = some md ∧
      md.content_objects = dir.files.map (entry_for commit pm dir.name) ∧
      (∀ pb : String × Bytes, (entry_for commit pm dir.name pb).source =
        (match parent_lookup (parent_objects pm) (dir.name ++ "/" ++ pb.1) with
         | some ph => if compute_file_hash pb.2 = ph then FileSource.inherited
            else FileSource.updated
         | none => FileSource.new)) ∧
      md.stats.total_files = dir.files.length ∧
      md.stats.inherited_files = source_count FileSource.inherited commit pm dir.name
        dir.files ∧
      md.stats.updated_files = source_count FileSource.updated commit pm dir.name
        dir.files ∧
      md.stats.new_files = source_count FileSource.new commit pm dir.name dir.files ∧
      md.stats.deduplication_ratio = round_to_4 (if 0 < dir.files.length then
        (md.stats.inherited_files : ℚ) / (md.stats.total_files : ℚ) else 0)) ∧
    pubA.1 = true ∧
    pubB.1 = true ∧
    (pubB.2.getMetadata "p" "main" "c2").map (fun m =>
      (m.stats.total_files, m.stats.inherited_files, m.stats.updated_files,
        m.stats.new_files)) = some (2, 1, 1, 0) ∧
    (pubB.2.getMetadata "p" "main" "c2").map (fun m => m.stats.deduplication_ratio) =
      some ((1 : ℚ) / 2) ∧
    pubA.2.content ⟨[120]⟩ = some [120] ∧
    fmB.contentPutOk ⟨[120]⟩ = false := by
  obtain ⟨s2, heq, hgm, hother, hcons2, hmono, hpres, hpb2, hbb, hlat, hlatf, hlatk⟩ :=
    full_publish_spec fm now s dir project branch commit pm hcons hfault hmeta
  have hu : upload_context_with_dedup fm now s (some dir) project branch commit pm =
      (true, s2) :=
    (upload_full_path fm now s dir project branch commit pm hm hcb).trans heq
  refine ⟨⟨published_metadata now project branch commit pm dir, by rw [hu],
    by rw [hu]; exact hgm, rfl, fun pb => entry_for_source commit pm dir.name pb,
    rfl, rfl, rfl, rfl, rfl⟩, rfl, rfl, rfl, ?_, rfl, rfl⟩
  have hr : (pubB.2.getMetadata "p" "main" "c2").map (fun m => m.stats.deduplication_ratio) =
      some (round_to_4 (if (2 : Nat) > 0 then ((1 : Nat) : ℚ) / ((2 : Nat) : ℚ) else 0)) :=
    rfl
  rw [hr, round_to_4_half]

/-- Witness for the amended C6, instantiated at the scenario's first
publish into the empty store. -/
theorem publish_stats_classification_witness :
    (∃ md, (upload_context_with_dedup no_faults "t1" emptyStore (some dirA1) "p" "main"
        "c1" none).1 = true ∧
      (upload_context_with_dedup no_faults "t1" emptyStore (some dirA1) "p" "main" "c1"
        none).2.getMetadata "p" "main" "c1" = some md ∧
      md.content_objects = dirA1.files.map (entry_for "c1" none dirA1.name) ∧
      (∀ pb : String × Bytes, (entry_for "c1" none dirA1.name pb).source =
        (match parent_lookup (parent_objects none) (dirA1.name ++ "/" ++ pb.1) with
         | some ph => if compute_file_hash pb.2 = ph then FileSource.inherited
            else FileSource.updated
         | none => FileSource.new)) ∧
      md.stats.total_files = dirA1.files.length ∧
      md.stats.inherited_files = source_count FileSource.inherited "c1" none dirA1.name
        dirA1.files ∧
      md.stats.updated_files = source_count FileSource.updated "c1" none dirA1.name
        dirA1.files ∧
      md.stats.new_files = source_count FileSource.new "c1" none dirA1.name dirA1.files ∧
      md.stats.deduplication_ratio = round_to_4 (if 0 < dirA1.files.length then
        (md.stats.inherited_files : ℚ) / (md.stats.total_files : ℚ) else 0)) ∧
    pubA.1 = true ∧
    pubB.1 = true ∧
    (pubB.2.getMetadata "p" "main" "c2").map (fun m =>
      (m.stats.total_files, m.stats.inherited_files, m.stats.updated_files,
        m.stats.new_files)) = some (2, 1, 1, 0) ∧
    (pubB.2.getMetadata "p" "main" "c2").map (fun m => m.stats.deduplication_ratio) =
      some ((1 : ℚ) / 2) ∧
    pubA.2.content ⟨[120]⟩ = some [120] ∧
    fmB.contentPutOk ⟨[120]⟩ = false :=
  publish_stats_classification no_faults "t1" emptyStore dirA1 "p" "main" "c1" none
    rfl rfl (fun _ _ h => nomatch h) (fun _ _ => Or.inl rfl) rfl

/-- Witness for C1: an exact hit is returned with strategy `exact`. -/
theorem find_best_context_tier_order_witness :
    find_best_context store_exact "p" "main" "c1" none =
      ⟨true, some "c1", some md_exact, "exact", none⟩ :=
  (find_best_context_tier_order store_exact "p" "main" "c1" none).1 md_exact rfl

/-- Witness for C9: a malformed metadata blob reads as missing and does not
change what resolution returns. -/
theorem malformed_metadata_read_as_missing_witness :
    malformed_store.getMetadata "p" "main" "c1" = none ∧
    find_best_context malformed_store "p" "main" "c1" none =
      find_best_context (scrub_malformed malformed_store) "p" "main" "c1" none :=
  ⟨(malformed_metadata_read_as_missing malformed_store "p" "main" "c1" none).1 rfl,
    (malformed_metadata_read_as_missing malformed_store "p" "main" "c1" none).2⟩
